import Mathlib

/-!
GoogleMapApp: weighted graph (`graph.h`) and Dijkstra route search (`application.cpp`)

Shallow embedding of the C++ sources.

* `std::map<K, T>` is an association list kept strictly ascending by key
  (`mapCount`, `mapAt`, `mapSet`); `std::set<K>` is a strictly ascending list
  (`setInsert`); `std::vector` is a list.
* `long long` vertex identifiers are integers; `INF2` is `2^63 - 1`.
* `double` is read as an exact number: edge weights range over a linearly
  ordered additive group `W`, distances over `WithTop W`, and the constant
  `INF` is `⊤`.
* the maps `distances` and `predeccesors` are read and written through
  `operator[]` only, so they are total functions (an absent key reads as the
  value-initialised `0`), updated with `Function.update`.
* `std::priority_queue` is the list of its entries; `top` is the entry no
  other entry beats under the comparator `prioritize`.
* `std::string` is a `String`, compared and searched character by character.
* the types of `osm.h` and the function `distBetween2Points` of `dist.h` are
  not among the sources: the types are modelled from the specification, the
  function is a parameter.
* `v[i]` on a vector yields a `VectorRead` (out of range is undefined
  behaviour in the source), `Nodes.at(k)` an `Option` (`none` is the
  exception).
-/

namespace GoogleMapApp

/-! ## `std::map` and `std::set` -/

/-- Member `m.count(k)` of a `std::map`: 1 when the key is present, else 0. -/
def mapCount {K T : Type} [DecidableEq K] (m : List (K × T)) (k : K) : Nat :=
  match m with
  | [] => 0
  | e :: rest => if e.1 = k then 1 else mapCount rest k

/-- Member `m.at(k)` of a `std::map`; `none` stands for the `out_of_range` exception. -/
def mapAt {K T : Type} [DecidableEq K] (m : List (K × T)) (k : K) : Option T :=
  match m with
  | [] => none
  | e :: rest => if e.1 = k then some e.2 else mapAt rest k

/-- Assignment `m[k] = x` of a `std::map`: overwrite the entry of `k`, or insert it at its
place in key order. -/
def mapSet {K T : Type} [LinearOrder K] (m : List (K × T)) (k : K) (x : T) : List (K × T) :=
  match m with
  | [] => [(k, x)]
  | e :: rest =>
    if k < e.1 then (k, x) :: e :: rest
    else if k = e.1 then (k, x) :: rest
    else e :: mapSet rest k x

/-- Member `S.insert(x)` of a `std::set`: no effect when present, else inserted in order. -/
def setInsert {K : Type} [LinearOrder K] (S : List K) (x : K) : List K :=
  match S with
  | [] => [x]
  | y :: rest =>
    if x < y then x :: y :: rest
    else if x = y then y :: rest
    else y :: setInsert rest x

/-! ## `graph.h` -/

/-- The two private members of `class graph`. -/
structure graph (VertexT WeightT : Type) where
  AdjList : List (VertexT × List (VertexT × WeightT))
  Vertices : List VertexT

namespace graph

variable {VertexT WeightT : Type} [LinearOrder VertexT]

/-- The default constructor `graph()`. -/
def empty : graph VertexT WeightT := ⟨[], []⟩

/-- Member `NumVertices`: the size of `AdjList`. -/
def NumVertices (G : graph VertexT WeightT) : Nat :=
  G.AdjList.length

/-- Member `NumEdges`: the sizes of the rows of `AdjList`, summed in iteration order. -/
def NumEdges (G : graph VertexT WeightT) : Nat :=
  G.AdjList.foldl (fun count e => count + e.2.length) 0

/-- Member `addVertex`: the returned flag and the graph after the call. -/
def addVertex (G : graph VertexT WeightT) (v : VertexT) : Bool × graph VertexT WeightT :=
  if mapCount G.AdjList v > 0 then (false, G)
  else (true, ⟨mapSet G.AdjList v [], G.Vertices ++ [v]⟩)

/-- Member `addEdge`: the returned flag and the graph after the call. -/
def addEdge (G : graph VertexT WeightT) (src dst : VertexT) (weight : WeightT) :
    Bool × graph VertexT WeightT :=
  if mapCount G.AdjList src ≤ 0 then (false, G)
  else if mapCount G.AdjList dst ≤ 0 then (false, G)
  else
    let tempMap := (mapAt G.AdjList src).getD []
    let tempMap := mapSet tempMap dst weight
    (true, ⟨mapSet G.AdjList src tempMap, G.Vertices⟩)

/-- Member `getWeight`: the returned flag and the reference parameter `weight` after
the call (`weight` is its value before the call). -/
def getWeight (G : graph VertexT WeightT) (src dst : VertexT) (weight : WeightT) :
    Bool × WeightT :=
  if mapCount G.AdjList src ≤ 0 then (false, weight)
  else if mapCount G.AdjList dst ≤ 0 then (false, weight)
  else if mapCount ((mapAt G.AdjList src).getD []) dst ≤ 0 then (false, weight)
  else
    match mapAt ((mapAt G.AdjList src).getD []) dst with
    | some w => (true, w)
    | none => (false, weight)

/-- Member `neighbors`: the set filled by inserting the keys of the row of `v`. -/
def neighbors (G : graph VertexT WeightT) (v : VertexT) : List VertexT :=
  if mapCount G.AdjList v ≤ 0 then []
  else ((mapAt G.AdjList v).getD []).foldl (fun S e => setInsert S e.1) []

/-- Member `getVertices`: a copy of `Vertices`. -/
def getVertices (G : graph VertexT WeightT) : List VertexT :=
  G.Vertices

end graph

/-! ## `application.cpp`: the shortest-path engine -/

section Dijkstra

variable {W : Type} [LinearOrderedAddCommGroup W]

/-- Constant `INF2`, that is `numeric_limits<long long>::max()`. -/
def INF2 : Int := 9223372036854775807

/-- Constant `INF`, that is `numeric_limits<double>::max()`, read as `+∞`. -/
def INF : WithTop W := ⊤

/-- The comparator `prioritize::operator()`. -/
def prioritize (p1 p2 : Int × WithTop W) : Bool :=
  if p1.2 = p2.2 then decide (p1.1 > p2.1)
  else decide (p1.2 > p2.2)

/-- Call `unvisitedQueue.top()`: the entry that `prioritize` orders after every
other one; `none` when the queue is empty. -/
def pqTop : List (Int × WithTop W) → Option (Int × WithTop W)
  | [] => none
  | p :: rest =>
    match pqTop rest with
    | none => some p
    | some t => if prioritize p t then some t else some p

/-- The variables of `DijkstraAlgo` that its loops read and write. -/
structure DijkstraState (W : Type) where
  distances : Int → WithTop W
  predeccesors : Int → Int
  visited : List Int
  unvisitedQueue : List (Int × WithTop W)

/-- Body of the initialisation loop `for (auto &e : vertices)`. -/
def initStep (st : DijkstraState W) (e : Int) : DijkstraState W :=
  { st with
    distances := Function.update st.distances e INF
    unvisitedQueue := (e, INF) :: st.unvisitedQueue
    predeccesors := Function.update st.predeccesors e INF2 }

/-- Body of the relaxation loop `for (auto &e : neighbors)`. The local
`edgeWeight` is uninitialised in the source; it starts at `0` here, a value
that is read only if `getWeight` fails. -/
def relaxStep (G : graph Int W) (currentV : Int) (st : DijkstraState W) (e : Int) :
    DijkstraState W :=
  let edgeWeight : W := (G.getWeight currentV e 0).2
  let altPathDist : WithTop W := st.distances currentV + (edgeWeight : WithTop W)
  if altPathDist < st.distances e then
    { st with
      distances := Function.update st.distances e altPathDist
      unvisitedQueue := (e, altPathDist) :: st.unvisitedQueue
      predeccesors := Function.update st.predeccesors e currentV }
  else st

/-- One pass through the body of `while (!unvisitedQueue.empty())`: `none`
when the loop is left (empty queue, or `break`), else the state at the end of
the pass. -/
def loopBody (G : graph Int W) (st : DijkstraState W) : Option (DijkstraState W) :=
  match pqTop st.unvisitedQueue with
  | none => none
  | some currentV =>
    let st := { st with unvisitedQueue := st.unvisitedQueue.erase currentV }
    if st.distances currentV.1 = INF then none
    else if currentV.1 ∈ st.visited then some st
    else
      let st := { st with visited := st.visited ++ [currentV.1] }
      some ((G.neighbors currentV.1).foldl (relaxStep G currentV.1) st)

/-- The `while` loop, run for at most `fuel` tests of its condition; `none`
when the fuel runs out first. -/
def dijkstraLoop (G : graph Int W) : Nat → DijkstraState W → Option (DijkstraState W)
  | 0, _ => none
  | fuel + 1, st =>
    match loopBody G st with
    | none => some st
    | some st1 => dijkstraLoop G fuel st1

/-- The state in which the `while` loop is entered. -/
def dijkstraInit (G : graph Int W) (startV : Int) (distances : Int → WithTop W)
    (predeccesors : Int → Int) : DijkstraState W :=
  let st := G.getVertices.foldl initStep ⟨distances, predeccesors, [], []⟩
  { st with
    distances := Function.update st.distances startV 0
    unvisitedQueue := (startV, 0) :: st.unvisitedQueue }

/-- Function `DijkstraAlgo`: the returned `visited` and the reference parameters
`distances` and `predeccesors` after the call. The loop gets one unit of fuel
for each entry that can ever enter the queue, and one for the final test. -/
def DijkstraAlgo (G : graph Int W) (startV : Int) (distances : Int → WithTop W)
    (predeccesors : Int → Int) :
    Option (List Int × (Int → WithTop W) × (Int → Int)) :=
  (dijkstraLoop G (G.getVertices.length + 1 + G.NumEdges + 1)
      (dijkstraInit G startV distances predeccesors)).map
    fun st => (st.visited, st.distances, st.predeccesors)

end Dijkstra

/-! ## `application.cpp`: path reconstruction in `main` -/

/-- What `main` prints after the search: `Sorry, destination unreachable`, or
the `Path:` line, with the vertices in the order they are printed. -/
inductive RouteOutput where
  | unreachable : RouteOutput
  | path : List Int → RouteOutput
  deriving DecidableEq

/-- The loop `while (true)` over the predecessors, started with `currDouble`
and the `path` built so far, run for at most `fuel` passes; `none` when the
fuel runs out before the `break`. -/
def predWalk (predeccesors : Int → Int) (minStart : Int) :
    Nat → Int → List Int → Option (List Int)
  | 0, _, _ => none
  | fuel + 1, currDouble, path =>
    let path := path ++ [currDouble]
    if currDouble = minStart then some path
    else predWalk predeccesors minStart fuel (predeccesors currDouble) path

/-- The statements of `main` that follow the call of `DijkstraAlgo`. The
vertices of `path` are printed from the last index down to index 0. -/
def reconstructPath {W : Type} [LinearOrderedAddCommGroup W] (fuel : Nat)
    (distances : Int → WithTop W) (predeccesors : Int → Int) (minStart minDest : Int) :
    Option RouteOutput :=
  if distances minDest = INF then some RouteOutput.unreachable
  else
    let path := [minDest]
    let currDouble := predeccesors minDest
    if currDouble ≠ INF2 then
      (predWalk predeccesors minStart fuel currDouble path).map
        fun path => RouteOutput.path path.reverse
    else some (RouteOutput.path path.reverse)

/-! ## Graph states and the notions the properties are stated with -/

/-- A call of one of the two mutating member functions of `graph`. -/
inductive Call (V W : Type) where
  | addVertex : V → Call V W
  | addEdge : V → V → W → Call V W

/-- The graph after one call (the returned flag is dropped). -/
def Call.run {V W : Type} [LinearOrder V] (G : graph V W) : Call V W → graph V W
  | Call.addVertex v => (G.addVertex v).2
  | Call.addEdge src dst weight => (G.addEdge src dst weight).2

/-- The graph that a sequence of calls builds from the graph `G`. -/
def buildFrom {V W : Type} [LinearOrder V] (G : graph V W) (calls : List (Call V W)) :
    graph V W :=
  calls.foldl Call.run G

/-- The graph that a sequence of calls builds from the empty graph. -/
def build {V W : Type} [LinearOrder V] (calls : List (Call V W)) : graph V W :=
  buildFrom graph.empty calls

/-- The arguments of the `addVertex` calls of a sequence, in call order. -/
def addVertexArgs {V W : Type} : List (Call V W) → List V
  | [] => []
  | Call.addVertex v :: rest => v :: addVertexArgs rest
  | Call.addEdge _ _ _ :: rest => addVertexArgs rest

/-- A sequence with every repeat of an earlier element removed. -/
def firstOccurrences {V : Type} [DecidableEq V] : List V → List V
  | [] => []
  | x :: rest => x :: (firstOccurrences rest).filter (fun y => decide (y ≠ x))

/-- The weight of the most recent call `addEdge(src, dst, .)` that returned
true, when `calls` are replayed from `G`; `last` is the answer for the calls
made before. -/
def lastAddEdge {V W : Type} [LinearOrder V] (src dst : V) :
    graph V W → Option W → List (Call V W) → Option W
  | _, last, [] => last
  | G, last, Call.addVertex v :: rest => lastAddEdge src dst (G.addVertex v).2 last rest
  | G, last, Call.addEdge a b w :: rest =>
    lastAddEdge src dst (G.addEdge a b w).2
      (if (G.addEdge a b w).1 = true ∧ a = src ∧ b = dst then some w else last) rest

/-- The call `getWeight(u, v, .)` succeeds and yields the weight `w`. -/
def graph.HasEdge {V W : Type} [LinearOrder V] (G : graph V W) (u v : V) (w : W) : Prop :=
  ∀ weight, G.getWeight u v weight = (true, w)

/-- The call `getWeight(u, v, .)` returns false and leaves its reference
parameter as it was. -/
def graph.NoEdge {V W : Type} [LinearOrder V] (G : graph V W) (u v : V) : Prop :=
  ∀ weight, G.getWeight u v weight = (false, weight)

section Routes

variable {W : Type} [LinearOrderedAddCommGroup W]

/-- The sum of `getWeight(u, v)` over the consecutive pairs `(u, v)` of a
vertex sequence; `none` when `getWeight` fails for one of them. -/
def routeWeight (G : graph Int W) : List Int → Option W
  | [] => some 0
  | [_] => some 0
  | u :: v :: rest =>
    if (G.getWeight u v 0).1 = true then
      (routeWeight G (v :: rest)).map fun c => (G.getWeight u v 0).2 + c
    else none

/-- The sequence `p` is a directed path of `G` from `s` to `d`: it starts at
`s`, ends at `d`, stays inside the vertices of `G`, and each consecutive pair
is joined by an edge. -/
def IsRoute (G : graph Int W) (s d : Int) (p : List Int) : Prop :=
  p.head? = some s ∧ p.getLast? = some d ∧ (∀ v ∈ p, v ∈ G.getVertices) ∧
    (routeWeight G p).isSome = true

/-- The vertex `d` is reachable from `s` by directed edges of `G`. -/
def Reachable (G : graph Int W) (s d : Int) : Prop :=
  ∃ p, IsRoute G s d p

end Routes

/-- The calls that build the graph of the end-to-end scenario: vertices 1 to
4, edges 1→2 (1), 2→3 (1), 1→3 (5), 3→4 (1). -/
def scenarioCalls : List (Call Int Int) :=
  [Call.addVertex 1, Call.addVertex 2, Call.addVertex 3, Call.addVertex 4,
    Call.addEdge 1 2 1, Call.addEdge 2 3 1, Call.addEdge 1 3 5, Call.addEdge 3 4 1]

/-- The graph of the end-to-end scenario, with the isolated vertex 5. -/
def scenarioGraph : graph Int Int :=
  build (scenarioCalls ++ [Call.addVertex 5])

/-- The row of `AdjList` for the vertex `u` (empty when `u` is not a key). -/
def graph.row {V W : Type} [LinearOrder V] (G : graph V W) (u : V) : List (V × W) :=
  (mapAt G.AdjList u).getD []

/-- The state invariant of `graph` objects: `Vertices` lists the keys of
`AdjList` without repeats, and every key of a row is a key of `AdjList`. -/
structure graph.Valid {V W : Type} [LinearOrder V] (G : graph V W) : Prop where
  vertices_iff : ∀ v, v ∈ G.Vertices ↔ mapCount G.AdjList v ≠ 0
  nodup : G.Vertices.Nodup
  closed : ∀ u v, mapCount (G.row u) v ≠ 0 → mapCount G.AdjList v ≠ 0

section ProofNotions

variable {W : Type} [LinearOrderedAddCommGroup W]

/-- There is a directed walk of `G` from `s` to `v` whose weights sum to `c`;
walks grow at their far end, one edge at a time. -/
inductive Walk (G : graph Int W) (s : Int) : Int → W → Prop where
  | nil : s ∈ G.getVertices → Walk G s s 0
  | snoc {v x : Int} {c w : W} : Walk G s v c → G.HasEdge v x w → Walk G s x (c + w)

/-- The sequence `p` runs from `s` to `v` and each of its vertices but the
first is preceded by its entry in `predeccesors`. -/
inductive PredPath (predeccesors : Int → Int) (s : Int) : Int → List Int → Prop where
  | base : PredPath predeccesors s s [s]
  | step {v : Int} {p : List Int} : v ≠ s → PredPath predeccesors s (predeccesors v) p →
      PredPath predeccesors s v (p ++ [v])

/-- The number of queue entries that can still be extracted: those in the
queue, and one for each edge leaving a vertex that is not yet visited. -/
def loopMeasure (G : graph Int W) (st : DijkstraState W) : Nat :=
  st.unvisitedQueue.length +
    ((G.AdjList.filter (fun e => decide (e.1 ∉ st.visited))).map (fun e => e.2.length)).sum

/-- The facts that hold of the search whatever the signs of the weights:
queue entries are vertices, and a vertex that has been visited, has a
distance other than `INF`, or has a predecessor other than `INF2`, is joined
to the source by a walk. -/
structure ReachInv (G : graph Int W) (s : Int) (st : DijkstraState W) : Prop where
  queue_vertex : ∀ p ∈ st.unvisitedQueue, p.1 ∈ G.getVertices
  visited_walk : ∀ v ∈ st.visited, ∃ c, Walk G s v c
  finite_walk : ∀ v ∈ G.getVertices,
    st.distances v ≠ ⊤ ∨ st.predeccesors v ≠ INF2 → ∃ c, Walk G s v c

/-- The loop invariant of the search on non-negative weights. The list `todo`
holds the edges out of the vertex being relaxed that the relaxation loop has
not reached yet; it is empty between passes of the `while` loop. -/
structure DijkstraInv (G : graph Int W) (s : Int) (todo : List (Int × Int))
    (st : DijkstraState W) : Prop where
  dist_source : st.distances s = 0
  pred_source : st.predeccesors s = INF2
  queue_vertex : ∀ p ∈ st.unvisitedQueue, p.1 ∈ G.getVertices
  queue_bound : ∀ p ∈ st.unvisitedQueue, st.distances p.1 ≤ p.2
  queue_has : ∀ v ∈ G.getVertices, v ∉ st.visited → st.distances v ≠ ⊤ →
    (v, st.distances v) ∈ st.unvisitedQueue
  visited_vertex : ∀ v ∈ st.visited, v ∈ G.getVertices ∧ st.distances v ≠ ⊤
  visited_nodup : st.visited.Nodup
  walk : ∀ v ∈ G.getVertices, st.distances v ≠ ⊤ →
    ∃ c, Walk G s v c ∧ st.distances v = (c : WithTop W)
  visited_opt : ∀ v ∈ st.visited, ∀ c, Walk G s v c → st.distances v ≤ (c : WithTop W)
  relaxed : ∀ u ∈ st.visited, ∀ v w, G.HasEdge u v w → (u, v) ∉ todo →
    st.distances v ≤ st.distances u + (w : WithTop W)
  pred : ∀ v ∈ G.getVertices, v ≠ s → st.distances v ≠ ⊤ →
    st.predeccesors v ∈ st.visited ∧
      ∃ w, G.HasEdge (st.predeccesors v) v w ∧
        st.distances v = st.distances (st.predeccesors v) + (w : WithTop W)
  pred_top : ∀ v ∈ G.getVertices, st.distances v = ⊤ → st.predeccesors v = INF2
  chain : ∀ v ∈ st.visited, ∃ p, PredPath st.predeccesors s v p ∧
    (∀ x ∈ p, x ∈ st.visited) ∧ p.Nodup

end ProofNotions

/-! ## `application.cpp`: the map data, the graph construction and the lookups of `main` -/

/-- Modelled from the spec: the type `Coordinates` of `osm.h`, a header that is
not among the sources. A coordinate is a latitude and a longitude; `D` stands
for `double`. -/
structure Coordinates (D : Type) where
  Lat : D
  Lon : D
  deriving DecidableEq

/-- Modelled from the spec: the type `FootwayInfo` of `osm.h`, a header that is
not among the sources. A path is the ordered sequence of its point
identifiers. -/
structure FootwayInfo where
  Nodes : List Int

/-- Modelled from the spec: the type `BuildingInfo` of `osm.h`, a header that
is not among the sources. A point of interest has an abbreviation, a full
name and a coordinate. -/
structure BuildingInfo (D : Type) where
  Abbrev : String
  Fullname : String
  Coords : Coordinates D

/-- Result of `v[i]` on a `std::vector`: the element, or `outOfRange` when `i`
is not below the size. The source neither tests the index nor catches
anything there: an out-of-range read is undefined behaviour of the program,
not a reported failure. -/
inductive VectorRead (α : Type) where
  | outOfRange : VectorRead α
  | elem : α → VectorRead α
  deriving DecidableEq

/-- Member `s.find(q)` of `std::string`: the least position at which `q`
occurs in `s`; `none` stands for `string::npos`. -/
def stringFind : List Char → List Char → Option Nat
  | [], q => if q = [] then some 0 else none
  | c :: cs, q =>
    if q.isPrefixOf (c :: cs) = true then some 0
    else (stringFind cs q).map (fun i => i + 1)

section Lookup

variable {D : Type}

/-- The first loop of the start lookup: what it leaves in `startName` and
`start` when it sets `validStart`, and `none` when `validStart` stays false. -/
def startAbbrevLoop (startBuilding : String) :
    List (BuildingInfo D) → Option (String × Coordinates D)
  | [] => none
  | e :: rest =>
    if e.Abbrev = startBuilding then some (e.Fullname, e.Coords)
    else startAbbrevLoop startBuilding rest

/-- The second loop of the start lookup, entered when `validStart` is false. -/
def startFullnameLoop (startBuilding : String) :
    List (BuildingInfo D) → Option (String × Coordinates D)
  | [] => none
  | e :: rest =>
    if stringFind e.Fullname.data startBuilding.data ≠ none ∨ e.Fullname = startBuilding then
      some (e.Fullname, e.Coords)
    else startFullnameLoop startBuilding rest

/-- The lookup of the start building: `some (startName, start)` when
`validStart` ends up true, `none` when `main` prints that the start building
is not found. -/
def lookupStart (Buildings : List (BuildingInfo D)) (startBuilding : String) :
    Option (String × Coordinates D) :=
  match startAbbrevLoop startBuilding Buildings with
  | some r => some r
  | none => startFullnameLoop startBuilding Buildings

/-- The first loop of the destination lookup. -/
def destAbbrevLoop (destBuilding : String) :
    List (BuildingInfo D) → Option (String × Coordinates D)
  | [] => none
  | e :: rest =>
    if e.Abbrev = destBuilding then some (e.Fullname, e.Coords)
    else destAbbrevLoop destBuilding rest

/-- The second loop of the destination lookup, entered when `validEnd` is
false. -/
def destFullnameLoop (destBuilding : String) :
    List (BuildingInfo D) → Option (String × Coordinates D)
  | [] => none
  | e :: rest =>
    if stringFind e.Fullname.data destBuilding.data ≠ none ∨ e.Fullname = destBuilding then
      some (e.Fullname, e.Coords)
    else destFullnameLoop destBuilding rest

/-- The lookup of the destination building: `some (endBuilding, end)` when
`validEnd` ends up true, else `none`. -/
def lookupDest (Buildings : List (BuildingInfo D)) (destBuilding : String) :
    Option (String × Coordinates D) :=
  match destAbbrevLoop destBuilding Buildings with
  | some r => some r
  | none => destFullnameLoop destBuilding Buildings

/-- The string `q` occurs in `name` as a contiguous run of characters. -/
def Occurs (q name : String) : Prop :=
  ∃ a b : List Char, a ++ q.data ++ b = name.data

end Lookup

section Nearest

variable {D : Type} [LinearOrder D]

/-- The read `Nodes[x]` of the point map: the entry of `x`, or the
value-initialised coordinate `dflt` when `x` is not a key. -/
def nodesIndex (Nodes : List (Int × Coordinates D)) (dflt : Coordinates D) (x : Int) :
    Coordinates D :=
  (mapAt Nodes x).getD dflt

/-- The four variables of the nearest-node scan. -/
structure NearestState (D : Type) where
  minStart : Int
  startMinDist : D
  minDest : Int
  endMinDist : D
  deriving DecidableEq

/-- Body of the inner loop `for (auto const &x : e.Nodes)` of the scan;
`endC` stands for the variable `end`. -/
def nearestStep (distBetween2Points : D → D → D → D → D) (Nodes : List (Int × Coordinates D))
    (dflt start endC : Coordinates D) (st : NearestState D) (x : Int) : NearestState D :=
  let st :=
    if distBetween2Points (nodesIndex Nodes dflt x).Lat (nodesIndex Nodes dflt x).Lon
        start.Lat start.Lon < st.startMinDist then
      { st with
        minStart := x
        startMinDist := distBetween2Points (nodesIndex Nodes dflt x).Lat
          (nodesIndex Nodes dflt x).Lon start.Lat start.Lon }
    else st
  if distBetween2Points (nodesIndex Nodes dflt x).Lat (nodesIndex Nodes dflt x).Lon
      endC.Lat endC.Lon < st.endMinDist then
    { st with
      minDest := x
      endMinDist := distBetween2Points (nodesIndex Nodes dflt x).Lat
        (nodesIndex Nodes dflt x).Lon endC.Lat endC.Lon }
  else st

/-- The nearest-node scan of `main`: the seed `Footways[0].Nodes[0]`, then the
two nested loops over all paths and their points. The external function
`distBetween2Points` of `dist.h` is a parameter. -/
def nearestNodes (distBetween2Points : D → D → D → D → D) (Nodes : List (Int × Coordinates D))
    (dflt : Coordinates D) (Footways : List FootwayInfo) (start endC : Coordinates D) :
    VectorRead (NearestState D) :=
  match Footways with
  | [] => VectorRead.outOfRange
  | f0 :: _ =>
    match f0.Nodes with
    | [] => VectorRead.outOfRange
    | x0 :: _ =>
      let seed : NearestState D :=
        { minStart := x0
          minDest := x0
          startMinDist := distBetween2Points (nodesIndex Nodes dflt x0).Lat
            (nodesIndex Nodes dflt x0).Lon start.Lat start.Lon
          endMinDist := distBetween2Points (nodesIndex Nodes dflt x0).Lat
            (nodesIndex Nodes dflt x0).Lon endC.Lat endC.Lon }
      VectorRead.elem (Footways.foldl
        (fun st e => e.Nodes.foldl (nearestStep distBetween2Points Nodes dflt start endC) st)
        seed)

/-- The distance that the scan computes between the point `x` and the
coordinate `c`. -/
def pointDist (distBetween2Points : D → D → D → D → D) (Nodes : List (Int × Coordinates D))
    (dflt c : Coordinates D) (x : Int) : D :=
  distBetween2Points (nodesIndex Nodes dflt x).Lat (nodesIndex Nodes dflt x).Lon c.Lat c.Lon

/-- The points of all paths in scan order: paths in list order, points in
path order. -/
def scanOrder (Footways : List FootwayInfo) : List Int :=
  (Footways.map FootwayInfo.Nodes).flatten

/-- The point `m` is the first point of the sequence `pts` at the least value
of `key`: every point before it has a strictly larger key, every point after
it a key that is not smaller. -/
def FirstMin (key : Int → D) (pts : List Int) (m : Int) : Prop :=
  ∃ l1 l2, pts = l1 ++ m :: l2 ∧ (∀ y ∈ l1, key m < key y) ∧ (∀ y ∈ l2, key m ≤ key y)

end Nearest

section BuildGraph

variable {D : Type}

/-- The loop `for (int i = 0; i < (int)e.Nodes.size() - 1; i++)` over one
path: for each consecutive pair the two calls of `addEdge`, both with the
distance from the first point of the pair to the second. `none` stands for
the `out_of_range` exception of `Nodes.at`. -/
def addFootwayEdges (distBetween2Points : D → D → D → D → D)
    (Nodes : List (Int × Coordinates D)) : graph Int D → List Int → Option (graph Int D)
  | G, a :: b :: rest =>
    match mapAt Nodes a, mapAt Nodes b with
    | some ca, some cb =>
      let G := (G.addEdge a b (distBetween2Points ca.Lat ca.Lon cb.Lat cb.Lon)).2
      let G := (G.addEdge b a (distBetween2Points ca.Lat ca.Lon cb.Lat cb.Lon)).2
      addFootwayEdges distBetween2Points Nodes G (b :: rest)
    | _, _ => none
  | G, _ => some G

/-- The loop `for (auto const &e : Footways)` of the graph construction. -/
def addFootways (distBetween2Points : D → D → D → D → D) (Nodes : List (Int × Coordinates D)) :
    graph Int D → List FootwayInfo → Option (graph Int D)
  | G, [] => some G
  | G, e :: rest =>
    match addFootwayEdges distBetween2Points Nodes G e.Nodes with
    | some G1 => addFootways distBetween2Points Nodes G1 rest
    | none => none

/-- The graph construction of `main`: one vertex for each key of `Nodes`, in
key order, then the edges of the paths. -/
def buildGraph (distBetween2Points : D → D → D → D → D) (Nodes : List (Int × Coordinates D))
    (Footways : List FootwayInfo) : Option (graph Int D) :=
  addFootways distBetween2Points Nodes
    (Nodes.foldl (fun G e => (G.addVertex e.1).2) graph.empty) Footways

/-- The identifiers `a`, `b` are consecutive, in this order, in the sequence
`l`. -/
def Consecutive (l : List Int) (a b : Int) : Prop :=
  ∃ l1 l2, l = l1 ++ a :: b :: l2

end BuildGraph

/-- The distance function of the examples: the sum of the absolute
differences of the latitudes and of the longitudes. -/
def exampleDist (a b c d : Int) : Int :=
  ((a - c).natAbs : Int) + ((b - d).natAbs : Int)

section Counting

variable {W : Type} [LinearOrderedAddCommGroup W]

/-- The `while` loop of `DijkstraAlgo` with two counters added: the passes
through its body (the entries popped), and the entries pushed by the
relaxation loops. A pass pops one entry, so the entries it pushes are the
growth of the queue plus one. -/
def dijkstraLoopCount (G : graph Int W) :
    Nat → DijkstraState W → Option (DijkstraState W × Nat × Nat)
  | 0, _ => none
  | fuel + 1, st =>
    match pqTop st.unvisitedQueue with
    | none => some (st, 0, 0)
    | some _ =>
      match loopBody G st with
      | none => some (st, 1, 0)
      | some st1 =>
        (dijkstraLoopCount G fuel st1).map fun r =>
          (r.1, r.2.1 + 1,
            r.2.2 + (st1.unvisitedQueue.length + 1 - st.unvisitedQueue.length))

end Counting

section RunPoints

variable {W : Type} [LinearOrderedAddCommGroup W]

/-- A point of a run of the `while` loop of `DijkstraAlgo`: the variables, the
vertex `currentV.first` of the pass that is under way, and the neighbours that
its relaxation loop has still to handle (none between two passes). -/
structure RunPoint (W : Type) where
  st : DijkstraState W
  cur : Int
  pending : List Int

/-- The next point of a run: one pass of the relaxation loop when a neighbour
is pending; else the start of the next pass of the `while` loop, up to the
entry of its relaxation loop; `none` when the `while` loop is left. -/
def pointStep (G : graph Int W) (pt : RunPoint W) : Option (RunPoint W) :=
  match pt.pending with
  | e :: rest => some ⟨relaxStep G pt.cur pt.st e, pt.cur, rest⟩
  | [] =>
    match pqTop pt.st.unvisitedQueue with
    | none => none
    | some currentV =>
      let st := { pt.st with unvisitedQueue := pt.st.unvisitedQueue.erase currentV }
      if st.distances currentV.1 = INF then none
      else if currentV.1 ∈ st.visited then some ⟨st, currentV.1, []⟩
      else
        some ⟨{ st with visited := st.visited ++ [currentV.1] }, currentV.1,
          G.neighbors currentV.1⟩

/-- The point `b` is the point `a` or comes after it in a run. -/
def RunLater (G : graph Int W) (a b : RunPoint W) : Prop :=
  Relation.ReflTransGen (fun x y => pointStep G x = some y) a b

/-- The order facts that hold at every point of a run on non-negative
weights: a queue entry records at least the current distance of its vertex;
an unvisited vertex in the queue with a distance other than `INF` has an
entry with its current distance; no visited vertex is farther than a queue
entry; distances do not decrease along `visited`; and while the relaxation
loop runs, no visited vertex is farther than the vertex being relaxed. -/
structure OrdInv (pt : RunPoint W) : Prop where
  queue_bound : ∀ p ∈ pt.st.unvisitedQueue, pt.st.distances p.1 ≤ p.2
  queue_has : ∀ p ∈ pt.st.unvisitedQueue, p.1 ∉ pt.st.visited → pt.st.distances p.1 ≠ ⊤ →
    (p.1, pt.st.distances p.1) ∈ pt.st.unvisitedQueue
  visited_le_queue : ∀ u ∈ pt.st.visited, ∀ p ∈ pt.st.unvisitedQueue,
    pt.st.distances u ≤ p.2
  mono : (pt.st.visited.map pt.st.distances).Pairwise (· ≤ ·)
  cur_last : pt.pending ≠ [] → ∀ u ∈ pt.st.visited,
    pt.st.distances u ≤ pt.st.distances pt.cur

end RunPoints

section MapLemmas

variable {K T : Type}

theorem mapCount_le_one [DecidableEq K] (m : List (K × T)) (k : K) : mapCount m k ≤ 1 := by
  induction m with
  | nil => simp [mapCount]
  | cons e rest ih =>
    by_cases h : e.1 = k
    · simp [mapCount, h]
    · simpa [mapCount, h] using ih

theorem mapCount_eq_zero_iff [DecidableEq K] (m : List (K × T)) (k : K) :
    mapCount m k = 0 ↔ mapAt m k = none := by
  induction m with
  | nil => simp [mapCount, mapAt]
  | cons e rest ih =>
    by_cases h : e.1 = k
    · simp [mapCount, mapAt, h]
    · simp [mapCount, mapAt, h, ih]

theorem mapCount_le_zero_iff [DecidableEq K] (m : List (K × T)) (k : K) :
    mapCount m k ≤ 0 ↔ mapAt m k = none := by
  rw [Nat.le_zero, mapCount_eq_zero_iff]

theorem mapCount_pos_iff [DecidableEq K] (m : List (K × T)) (k : K) :
    mapCount m k > 0 ↔ mapAt m k ≠ none := by
  rw [gt_iff_lt, Nat.pos_iff_ne_zero, ne_eq, mapCount_eq_zero_iff]

theorem mapAt_mapSet [LinearOrder K] (m : List (K × T)) (k k1 : K) (x : T) :
    mapAt (mapSet m k x) k1 = if k1 = k then some x else mapAt m k1 := by
  induction m with
  | nil =>
    by_cases h : k1 = k
    · simp [mapSet, mapAt, h]
    · simp [mapSet, mapAt, h, Ne.symm h]
  | cons e rest ih =>
    unfold mapSet
    by_cases h1 : k < e.1
    · simp only [h1, if_true]
      by_cases h : k1 = k
      · simp [mapAt, h]
      · simp [mapAt, h, Ne.symm h]
    · simp only [h1, if_false]
      by_cases h2 : k = e.1
      · simp only [h2, if_true]
        by_cases h : k1 = e.1
        · simp [mapAt, h]
        · simp [mapAt, h, Ne.symm h]
      · simp only [h2, if_false]
        by_cases h : e.1 = k1
        · have h3 : ¬ k1 = k := fun hh => h2 (by rw [← hh, h])
          simp [mapAt, h, h3]
        · simp [mapAt, h, ih]

theorem mapCount_mapSet [LinearOrder K] (m : List (K × T)) (k k1 : K) (x : T) :
    mapCount (mapSet m k x) k1 = if k1 = k then 1 else mapCount m k1 := by
  by_cases h : k1 = k
  · have h1 : mapCount (mapSet m k x) k1 ≠ 0 := by
      rw [ne_eq, mapCount_eq_zero_iff, mapAt_mapSet]; simp [h]
    have h2 := mapCount_le_one (mapSet m k x) k1
    simp only [h, if_true]
    rw [h] at h1 h2
    omega
  · simp only [h, if_false]
    by_cases h0 : mapCount m k1 = 0
    · rw [h0, mapCount_eq_zero_iff, mapAt_mapSet]
      simpa [h] using (mapCount_eq_zero_iff m k1).mp h0
    · have h1 : mapCount (mapSet m k x) k1 ≠ 0 := by
        rw [ne_eq, mapCount_eq_zero_iff, mapAt_mapSet]
        simpa [h] using (mapCount_eq_zero_iff m k1).not.mp h0
      have h2 := mapCount_le_one (mapSet m k x) k1
      have h3 := mapCount_le_one m k1
      omega

theorem mapAt_mapSet_self [LinearOrder K] (m : List (K × T)) (k : K) (x : T) :
    mapAt (mapSet m k x) k = some x := by
  rw [mapAt_mapSet]; simp

theorem mapAt_mapSet_ne [LinearOrder K] (m : List (K × T)) {k k1 : K} (x : T) (h : k1 ≠ k) :
    mapAt (mapSet m k x) k1 = mapAt m k1 := by
  rw [mapAt_mapSet]; simp [h]

theorem mapSet_mapSet [LinearOrder K] (m : List (K × T)) (k : K) (x y : T) :
    mapSet (mapSet m k x) k y = mapSet m k y := by
  induction m with
  | nil => simp [mapSet]
  | cons e rest ih =>
    by_cases h1 : k < e.1
    · simp [mapSet, h1]
    · by_cases h2 : k = e.1
      · simp [mapSet, h1, h2]
      · simp [mapSet, h1, h2, ih]

theorem mapSet_rowLengths [LinearOrder K] {U : Type} (m : List (K × List U)) (k : K)
    (x y : List U) (h : x.length = y.length) :
    (mapSet m k x).map (fun e => e.2.length) = (mapSet m k y).map (fun e => e.2.length) := by
  induction m with
  | nil => simp [mapSet, h]
  | cons e rest ih =>
    by_cases h1 : k < e.1
    · simp [mapSet, h1, h]
    · by_cases h2 : k = e.1
      · simp [mapSet, h1, h2, h]
      · simp [mapSet, h1, h2, ih]

theorem mapSet_length [LinearOrder K] (m : List (K × T)) (k : K) (x y : T) :
    (mapSet m k x).length = (mapSet m k y).length := by
  induction m with
  | nil => simp [mapSet]
  | cons e rest ih =>
    by_cases h1 : k < e.1
    · simp [mapSet, h1]
    · by_cases h2 : k = e.1
      · simp [mapSet, h1, h2]
      · simp [mapSet, h1, h2, ih]

theorem mem_setInsert [LinearOrder K] (S : List K) (x y : K) :
    y ∈ setInsert S x ↔ y = x ∨ y ∈ S := by
  induction S with
  | nil => simp [setInsert]
  | cons z rest ih =>
    by_cases h1 : x < z
    · simp [setInsert, h1]
    · by_cases h2 : x = z
      · simp [setInsert, h1, h2]
      · simp only [setInsert, h1, h2, if_false, List.mem_cons, ih]
        tauto

theorem setInsert_pairwise [LinearOrder K] (S : List K) (x : K)
    (h : S.Pairwise (· < ·)) : (setInsert S x).Pairwise (· < ·) := by
  induction S with
  | nil => simp [setInsert]
  | cons z rest ih =>
    rw [List.pairwise_cons] at h
    by_cases h1 : x < z
    · simp only [setInsert, h1, if_true, List.pairwise_cons]
      refine ⟨?_, h⟩
      intro a ha
      rcases List.mem_cons.mp ha with rfl | ha
      · exact h1
      · exact lt_trans h1 (h.1 a ha)
    · by_cases h2 : x = z
      · simp only [setInsert, h1, h2, if_true, if_false, List.pairwise_cons]
        simpa [h2] using h
      · simp only [setInsert, h1, h2, if_false, List.pairwise_cons]
        refine ⟨?_, ih h.2⟩
        intro a ha
        rcases (mem_setInsert rest x a).mp ha with rfl | ha
        · exact lt_of_le_of_ne (not_lt.mp h1) (Ne.symm h2)
        · exact h.1 a ha

theorem setInsert_length_le [LinearOrder K] (S : List K) (x : K) :
    (setInsert S x).length ≤ S.length + 1 := by
  induction S with
  | nil => simp [setInsert]
  | cons z rest ih =>
    by_cases h1 : x < z
    · simp [setInsert, h1]
    · by_cases h2 : x = z
      · simp [setInsert, h1, h2]
      · simp only [setInsert, h1, h2, if_false, List.length_cons]
        omega

end MapLemmas

/-! ## Lemmas on `graph` -/

section GraphLemmas

variable {V W : Type} [LinearOrder V]

theorem graph.getWeight_eq (G : graph V W) (u v : V) (weight : W) :
    G.getWeight u v weight =
      if mapCount G.AdjList u = 0 ∨ mapCount G.AdjList v = 0 then (false, weight)
      else match mapAt (G.row u) v with
        | some w => (true, w)
        | none => (false, weight) := by
  unfold graph.getWeight graph.row
  simp only [Nat.le_zero]
  by_cases h1 : mapCount G.AdjList u = 0
  · simp [h1]
  · by_cases h2 : mapCount G.AdjList v = 0
    · simp [h2]
    · simp only [h1, h2, if_false, or_self]
      cases h3 : mapAt ((mapAt G.AdjList u).getD []) v with
      | none => simp [(mapCount_eq_zero_iff _ _).mpr h3]
      | some x => simp [(mapCount_eq_zero_iff _ _).not.mpr (by rw [h3]; simp)]

theorem graph.hasEdge_iff (G : graph V W) (u v : V) (w : W) :
    G.HasEdge u v w ↔
      mapCount G.AdjList u ≠ 0 ∧ mapCount G.AdjList v ≠ 0 ∧ mapAt (G.row u) v = some w := by
  unfold graph.HasEdge
  simp only [graph.getWeight_eq]
  constructor
  · intro h
    have h0 := h w
    by_cases h1 : mapCount G.AdjList u = 0 ∨ mapCount G.AdjList v = 0
    · simp [h1] at h0
    · simp only [h1, if_false] at h0
      push_neg at h1
      refine ⟨h1.1, h1.2, ?_⟩
      cases h3 : mapAt (G.row u) v with
      | none => simp [h3] at h0
      | some x => simp only [h3, Prod.mk.injEq, true_and] at h0; rw [h0]
  · rintro ⟨h1, h2, h3⟩ weight
    simp [h1, h2, h3]

theorem graph.getWeight_fst_iff (G : graph V W) (u v : V) (weight : W) :
    (G.getWeight u v weight).1 = true ↔ G.HasEdge u v (G.getWeight u v weight).2 := by
  rw [graph.hasEdge_iff, graph.getWeight_eq]
  by_cases h1 : mapCount G.AdjList u = 0 ∨ mapCount G.AdjList v = 0
  · simp only [h1, if_true]
    constructor
    · intro h; simp at h
    · rintro ⟨h2, h3, -⟩
      rcases h1 with h1 | h1
      · exact absurd h1 h2
      · exact absurd h1 h3
  · simp only [h1, if_false]
    push_neg at h1
    cases h3 : mapAt (G.row u) v with
    | none => simp
    | some x => simp [h1.1, h1.2]

theorem graph.noEdge_iff (G : graph V W) (u v : V) :
    G.NoEdge u v ↔ ∀ w, ¬ G.HasEdge u v w := by
  constructor
  · intro h w hw
    have h1 := h w
    rw [hw w] at h1
    simp at h1
  · intro h weight
    have h1 := (graph.getWeight_fst_iff G u v weight).not.mpr (h _)
    rw [graph.getWeight_eq] at h1 ⊢
    by_cases h2 : mapCount G.AdjList u = 0 ∨ mapCount G.AdjList v = 0
    · simp [h2]
    · simp only [h2, if_false] at h1 ⊢
      cases h3 : mapAt (G.row u) v with
      | none => rfl
      | some x => simp [h3] at h1

theorem mem_foldl_setInsert {U : Type} (r : List (V × U)) (S : List V) (y : V) :
    y ∈ r.foldl (fun S e => setInsert S e.1) S ↔ y ∈ S ∨ mapCount r y ≠ 0 := by
  induction r generalizing S with
  | nil => simp [mapCount]
  | cons e rest ih =>
    simp only [List.foldl_cons, ih, mem_setInsert, mapCount]
    by_cases h : e.1 = y
    · simp [h]
    · have h1 : ¬ y = e.1 := fun hh => h hh.symm
      simp [h, h1]

theorem foldl_setInsert_pairwise {U : Type} (r : List (V × U)) (S : List V)
    (h : S.Pairwise (· < ·)) :
    (r.foldl (fun S e => setInsert S e.1) S).Pairwise (· < ·) := by
  induction r generalizing S with
  | nil => simpa using h
  | cons e rest ih => exact ih _ (setInsert_pairwise S e.1 h)

theorem foldl_setInsert_length {U : Type} (r : List (V × U)) (S : List V) :
    (r.foldl (fun S e => setInsert S e.1) S).length ≤ S.length + r.length := by
  induction r generalizing S with
  | nil => simp
  | cons e rest ih =>
    have h1 := ih (setInsert S e.1)
    have h2 := setInsert_length_le S e.1
    simp only [List.foldl_cons, List.length_cons]
    omega

theorem graph.row_eq_nil (G : graph V W) (v : V) (h : mapCount G.AdjList v = 0) :
    G.row v = [] := by
  simp [graph.row, (mapCount_eq_zero_iff _ _).mp h]

theorem graph.mem_neighbors (G : graph V W) (v u : V) :
    u ∈ G.neighbors v ↔ mapCount (G.row v) u ≠ 0 := by
  unfold graph.neighbors
  by_cases h : mapCount G.AdjList v = 0
  · simp [h, graph.row_eq_nil G v h, mapCount]
  · have h1 : ¬ mapCount G.AdjList v ≤ 0 := by omega
    simp only [h1, if_false]
    rw [mem_foldl_setInsert]
    simp [graph.row]

theorem graph.neighbors_pairwise (G : graph V W) (v : V) :
    (G.neighbors v).Pairwise (· < ·) := by
  unfold graph.neighbors
  split
  · exact List.Pairwise.nil
  · exact foldl_setInsert_pairwise _ _ List.Pairwise.nil

theorem graph.neighbors_length_le (G : graph V W) (v : V) :
    (G.neighbors v).length ≤ (G.row v).length := by
  unfold graph.neighbors
  split
  · simp
  · have := foldl_setInsert_length ((mapAt G.AdjList v).getD []) ([] : List V)
    simpa [graph.row] using this

theorem graph.valid_empty : (graph.empty : graph V W).Valid := by
  refine ⟨?_, ?_, ?_⟩
  · intro v; simp [graph.empty, mapCount]
  · simp [graph.empty]
  · intro u v; simp [graph.empty, graph.row, mapAt, mapCount]

theorem graph.addVertex_eq (G : graph V W) (v : V) :
    G.addVertex v =
      if mapCount G.AdjList v ≠ 0 then (false, G)
      else (true, ⟨mapSet G.AdjList v [], G.Vertices ++ [v]⟩) := by
  unfold graph.addVertex
  simp only [gt_iff_lt, Nat.pos_iff_ne_zero]

theorem graph.addEdge_eq (G : graph V W) (a b : V) (w : W) :
    G.addEdge a b w =
      if mapCount G.AdjList a = 0 ∨ mapCount G.AdjList b = 0 then (false, G)
      else (true, ⟨mapSet G.AdjList a (mapSet (G.row a) b w), G.Vertices⟩) := by
  unfold graph.addEdge graph.row
  simp only [Nat.le_zero]
  by_cases h1 : mapCount G.AdjList a = 0
  · simp [h1]
  · by_cases h2 : mapCount G.AdjList b = 0
    · simp [h2]
    · simp [h1, h2]

theorem graph.valid_addVertex (G : graph V W) (hG : G.Valid) (v : V) :
    (G.addVertex v).2.Valid := by
  rw [graph.addVertex_eq]
  by_cases h : mapCount G.AdjList v ≠ 0
  · simpa [h] using hG
  · simp only [h, if_false]
    have hv : v ∉ G.Vertices := fun hh => h ((hG.vertices_iff v).mp hh)
    refine ⟨?_, ?_, ?_⟩
    · intro x
      simp only [List.mem_append, List.mem_singleton, mapCount_mapSet, hG.vertices_iff]
      by_cases hx : x = v
      · simp [hx]
      · simp [hx]
    · simp only
      exact List.Nodup.append hG.nodup (List.nodup_singleton v) (by simpa using hv)
    · intro u x
      simp only [graph.row, mapAt_mapSet, mapCount_mapSet]
      by_cases hu : u = v
      · simp [hu, mapCount]
      · simp only [hu, if_false]
        intro hx
        have := hG.closed u x hx
        by_cases hxv : x = v
        · simp [hxv]
        · simpa [hxv] using this

theorem graph.valid_addEdge (G : graph V W) (hG : G.Valid) (a b : V) (w : W) :
    (G.addEdge a b w).2.Valid := by
  rw [graph.addEdge_eq]
  by_cases h : mapCount G.AdjList a = 0 ∨ mapCount G.AdjList b = 0
  · simpa [h] using hG
  · simp only [h, if_false]
    push_neg at h
    refine ⟨?_, hG.nodup, ?_⟩
    · intro x
      simp only [mapCount_mapSet, hG.vertices_iff]
      by_cases hx : x = a
      · simp [hx, h.1]
      · simp [hx]
    · intro u x
      simp only [graph.row, mapAt_mapSet, mapCount_mapSet]
      by_cases hu : u = a
      · simp only [hu, if_true, Option.getD_some, mapCount_mapSet]
        by_cases hx : x = b
        · intro _
          by_cases hxa : x = a
          · simp [hxa]
          · rw [hx] at hxa ⊢
            simpa [hxa] using h.2
        · simp only [hx, if_false]
          intro hh
          have := hG.closed a x hh
          by_cases hxa : x = a
          · simp [hxa]
          · simpa [hxa] using this
      · simp only [hu, if_false]
        intro hh
        have := hG.closed u x hh
        by_cases hxa : x = a
        · simp [hxa]
        · simpa [hxa] using this

theorem valid_run (G : graph V W) (hG : G.Valid) (c : Call V W) : (c.run G).Valid := by
  cases c with
  | addVertex v => exact graph.valid_addVertex G hG v
  | addEdge a b w => exact graph.valid_addEdge G hG a b w

theorem valid_buildFrom (G : graph V W) (hG : G.Valid) (calls : List (Call V W)) :
    (buildFrom G calls).Valid := by
  induction calls generalizing G with
  | nil => exact hG
  | cons c rest ih => exact ih _ (valid_run G hG c)

theorem valid_build (calls : List (Call V W)) : (build calls).Valid :=
  valid_buildFrom _ graph.valid_empty calls

theorem graph.row_mapSet (G : graph V W) (a x : V) (r : List (V × W)) (L : List V) :
    (graph.mk (mapSet G.AdjList a r) L).row x = if x = a then r else G.row x := by
  unfold graph.row
  simp only [mapAt_mapSet]
  by_cases h : x = a
  · simp [h]
  · simp [h]

theorem graph.getWeight_addVertex (G : graph V W) (hG : G.Valid) (v src dst : V) (weight : W) :
    (G.addVertex v).2.getWeight src dst weight = G.getWeight src dst weight := by
  rw [graph.addVertex_eq]
  by_cases h : mapCount G.AdjList v ≠ 0
  · simp [h]
  · simp only [h, if_false]
    rw [not_not] at h
    rw [graph.getWeight_eq, graph.getWeight_eq]
    simp only [graph.row_mapSet, mapCount_mapSet]
    by_cases h1 : src = v
    · simp [h1, h, mapAt]
    · simp only [h1, if_false]
      by_cases h2 : dst = v
      · simp only [h2, if_true, h, or_true]
        by_cases h3 : mapCount G.AdjList src = 0
        · simp [h3]
        · have h4 : mapCount (G.row src) v = 0 := by
            by_contra hc
            exact hG.closed src v hc h
          simp [h3, (mapCount_eq_zero_iff _ _).mp h4]
      · simp [h2]

theorem graph.getWeight_addEdge (G : graph V W) (a b : V) (w : W) (src dst : V) (weight : W) :
    (G.addEdge a b w).2.getWeight src dst weight =
      if (G.addEdge a b w).1 = true ∧ a = src ∧ b = dst then (true, w)
      else G.getWeight src dst weight := by
  rw [graph.addEdge_eq]
  by_cases h : mapCount G.AdjList a = 0 ∨ mapCount G.AdjList b = 0
  · simp [h]
  · simp only [h, if_false, true_and]
    push_neg at h
    have hc : ∀ x, (if x = a then 1 else mapCount G.AdjList x) = 0 ↔ mapCount G.AdjList x = 0 := by
      intro x
      by_cases hx : x = a
      · simp [hx, h.1]
      · simp [hx]
    rw [graph.getWeight_eq, graph.getWeight_eq]
    simp only [graph.row_mapSet, mapCount_mapSet, hc]
    by_cases h1 : src = a
    · subst h1
      by_cases h2 : dst = b
      · subst h2
        simp [h.1, h.2, mapAt_mapSet_self]
      · have h3 : ¬ b = dst := fun hh => h2 hh.symm
        simp [h3, mapAt_mapSet_ne _ _ h2]
    · have h3 : ¬ a = src := fun hh => h1 hh.symm
      simp [h1, h3]

theorem getWeight_buildFrom (G : graph V W) (hG : G.Valid) (calls : List (Call V W))
    (src dst : V) (weight : W) (last : Option W)
    (h : G.getWeight src dst weight =
      match last with
      | some w => (true, w)
      | none => (false, weight)) :
    (buildFrom G calls).getWeight src dst weight =
      match lastAddEdge src dst G last calls with
      | some w => (true, w)
      | none => (false, weight) := by
  induction calls generalizing G last with
  | nil => simpa [buildFrom, lastAddEdge] using h
  | cons c rest ih =>
    cases c with
    | addVertex v =>
      simp only [buildFrom, List.foldl_cons, Call.run, lastAddEdge]
      apply ih _ (graph.valid_addVertex G hG v)
      rw [graph.getWeight_addVertex G hG]
      exact h
    | addEdge a b w =>
      simp only [buildFrom, List.foldl_cons, Call.run, lastAddEdge]
      apply ih _ (graph.valid_addEdge G hG a b w)
      rw [graph.getWeight_addEdge]
      by_cases hc : (G.addEdge a b w).1 = true ∧ a = src ∧ b = dst
      · obtain ⟨h1, rfl, rfl⟩ := hc
        simp [h1]
      · simp only [hc, if_false]
        exact h

theorem getVertices_buildFrom (G : graph V W) (hG : G.Valid) (calls : List (Call V W)) :
    (buildFrom G calls).Vertices =
      G.Vertices ++ (firstOccurrences (addVertexArgs calls)).filter
        (fun y => decide (y ∉ G.Vertices)) := by
  induction calls generalizing G with
  | nil => simp [buildFrom, addVertexArgs, firstOccurrences]
  | cons c rest ih =>
    cases c with
    | addVertex v =>
      have ih1 := ih _ (graph.valid_addVertex G hG v)
      simp only [buildFrom, List.foldl_cons, Call.run] at ih1 ⊢
      rw [ih1]
      simp only [addVertexArgs, firstOccurrences]
      by_cases h : mapCount G.AdjList v ≠ 0
      · have hv : v ∈ G.Vertices := (hG.vertices_iff v).mpr h
        have hG2 : (G.addVertex v).2 = G := by rw [graph.addVertex_eq]; simp [h]
        rw [hG2]
        simp only [List.filter_cons, hv, not_true, decide_False, List.filter_filter]
        congr 1
        apply List.filter_congr
        intro y _
        by_cases hy : y ∈ G.Vertices
        · simp [hy]
        · have : y ≠ v := fun hh => hy (hh ▸ hv)
          simp [hy, this]
      · have hv : v ∉ G.Vertices := fun hh => h ((hG.vertices_iff v).mp hh)
        have hG2 : (G.addVertex v).2.Vertices = G.Vertices ++ [v] := by
          rw [graph.addVertex_eq]; simp [h]
        rw [hG2]
        simp only [List.filter_cons, hv, not_false_eq_true, decide_True,
          List.filter_filter, List.append_assoc, List.singleton_append, if_true]
        congr 2
        apply List.filter_congr
        intro y _
        by_cases hy : y ∈ G.Vertices
        · simp [hy]
        · by_cases hyv : y = v
          · simp [hyv]
          · simp [hy, hyv]
    | addEdge a b w =>
      have ih1 := ih _ (graph.valid_addEdge G hG a b w)
      simp only [buildFrom, List.foldl_cons, Call.run] at ih1 ⊢
      rw [ih1]
      simp only [addVertexArgs]
      have : (G.addEdge a b w).2.Vertices = G.Vertices := by
        rw [graph.addEdge_eq]; split <;> rfl
      rw [this]

omit [LinearOrder V] in
theorem graph.numEdges_eq_sum (G : graph V W) :
    G.NumEdges = (G.AdjList.map (fun e => e.2.length)).sum := by
  unfold graph.NumEdges
  have : ∀ (l : List (V × List (V × W))) (n : Nat),
      l.foldl (fun count e => count + e.2.length) n = n + (l.map (fun e => e.2.length)).sum := by
    intro l
    induction l with
    | nil => simp
    | cons e rest ih => intro n; simp [ih, Nat.add_assoc]
  simpa using this G.AdjList 0

theorem graph.addEdge_addEdge (G : graph V W) (a b : V) (w1 w2 : W) :
    ((G.addEdge a b w1).2.addEdge a b w2).2 = (G.addEdge a b w2).2 := by
  by_cases h : mapCount G.AdjList a = 0 ∨ mapCount G.AdjList b = 0
  · have h1 : (G.addEdge a b w1).2 = G := by rw [graph.addEdge_eq]; simp [h]
    rw [h1]
  · have h1 : (G.addEdge a b w1).2 =
        ⟨mapSet G.AdjList a (mapSet (G.row a) b w1), G.Vertices⟩ := by
      rw [graph.addEdge_eq]; simp [h]
    rw [h1, graph.addEdge_eq, graph.addEdge_eq G]
    push_neg at h
    have hc : ∀ x, (if x = a then 1 else mapCount G.AdjList x) = 0 ↔
        mapCount G.AdjList x = 0 := by
      intro x
      by_cases hx : x = a
      · simp [hx, h.1]
      · simp [hx]
    simp only [graph.row_mapSet, mapCount_mapSet, hc, h.1, h.2, or_self, if_false, if_true,
      mapSet_mapSet]
    simp

theorem graph.addEdge_fst (G : graph V W) (a b : V) (w : W) :
    (G.addEdge a b w).1 = true ↔ mapCount G.AdjList a ≠ 0 ∧ mapCount G.AdjList b ≠ 0 := by
  rw [graph.addEdge_eq]
  by_cases h : mapCount G.AdjList a = 0 ∨ mapCount G.AdjList b = 0
  · simp only [h, if_true]
    constructor
    · intro hh; simp at hh
    · rintro ⟨h1, h2⟩
      rcases h with h | h
      · exact absurd h h1
      · exact absurd h h2
  · simp only [h, if_false, true_iff]
    push_neg at h
    exact h

theorem graph.numEdges_addEdge (G : graph V W) (a b : V) (w1 w2 : W) :
    (G.addEdge a b w1).2.NumEdges = (G.addEdge a b w2).2.NumEdges := by
  rw [graph.numEdges_eq_sum, graph.numEdges_eq_sum, graph.addEdge_eq, graph.addEdge_eq]
  by_cases h : mapCount G.AdjList a = 0 ∨ mapCount G.AdjList b = 0
  · simp [h]
  · simp only [h, if_false]
    rw [mapSet_rowLengths G.AdjList a _ _ (mapSet_length (G.row a) b w1 w2)]

end GraphLemmas

/-! ## The contract of `graph` -/

section GraphContract

variable {V W : Type} [LinearOrder V]

/-- C5: on every graph state (every graph built by calls of `addVertex` and
`addEdge`), `addEdge(src, dst, weight)` returns false exactly when `src` or
`dst` is not in `getVertices()`, and then the graph after the call is the
graph before it. -/
theorem addEdge_false_iff (calls : List (Call V W)) (src dst : V) (weight : W) :
    (((build calls).addEdge src dst weight).1 = false ↔
      (src ∉ (build calls).getVertices ∨ dst ∉ (build calls).getVertices)) ∧
    (((build calls).addEdge src dst weight).1 = false →
      ((build calls).addEdge src dst weight).2 = build calls) := by
  have hG := valid_build calls
  rw [graph.addEdge_eq]
  unfold graph.getVertices
  rw [hG.vertices_iff, hG.vertices_iff]
  by_cases h : mapCount (build calls).AdjList src = 0 ∨ mapCount (build calls).AdjList dst = 0
  · simp only [h, if_true, true_iff, implies_true, and_true]
    rcases h with h | h
    · exact Or.inl (by simp [h])
    · exact Or.inr (by simp [h])
  · simp only [h, if_false]
    push_neg at h
    simp [h.1, h.2]

/-- C6: on every graph state in which `a` and `b` are vertices, the calls
`addEdge(a, b, w1)` and `addEdge(a, b, w2)` both return true, making them in
this order leaves the graph that `addEdge(a, b, w2)` alone leaves,
`getWeight(a, b)` then yields `w2`, repeating `addEdge(a, b, w1)` changes
nothing, and the second call leaves `NumEdges` as it was. -/
theorem addEdge_overwrite (calls : List (Call V W)) (a b : V) (w1 w2 : W)
    (ha : a ∈ (build calls).getVertices) (hb : b ∈ (build calls).getVertices) :
    ((build calls).addEdge a b w1).1 = true ∧
    (((build calls).addEdge a b w1).2.addEdge a b w2).1 = true ∧
    (((build calls).addEdge a b w1).2.addEdge a b w2).2 = ((build calls).addEdge a b w2).2 ∧
    (((build calls).addEdge a b w1).2.addEdge a b w2).2.HasEdge a b w2 ∧
    (((build calls).addEdge a b w1).2.addEdge a b w1).2 = ((build calls).addEdge a b w1).2 ∧
    (((build calls).addEdge a b w1).2.addEdge a b w2).2.NumEdges =
      ((build calls).addEdge a b w1).2.NumEdges := by
  have hG := valid_build calls
  have ha1 : mapCount (build calls).AdjList a ≠ 0 := (hG.vertices_iff a).mp ha
  have hb1 : mapCount (build calls).AdjList b ≠ 0 := (hG.vertices_iff b).mp hb
  have h1 : ∀ w, ((build calls).addEdge a b w).1 = true := fun w =>
    (graph.addEdge_fst _ a b w).mpr ⟨ha1, hb1⟩
  have hG1 := graph.valid_addEdge _ hG a b w1
  have hv : ((build calls).addEdge a b w1).2.Vertices = (build calls).Vertices := by
    rw [graph.addEdge_eq]; split <;> rfl
  have ha2 : mapCount ((build calls).addEdge a b w1).2.AdjList a ≠ 0 :=
    (hG1.vertices_iff a).mp (by rw [hv]; exact ha)
  have hb2 : mapCount ((build calls).addEdge a b w1).2.AdjList b ≠ 0 :=
    (hG1.vertices_iff b).mp (by rw [hv]; exact hb)
  have h2 : ∀ w, (((build calls).addEdge a b w1).2.addEdge a b w).1 = true := fun w =>
    (graph.addEdge_fst _ a b w).mpr ⟨ha2, hb2⟩
  refine ⟨h1 w1, h2 w2, graph.addEdge_addEdge _ a b w1 w2, ?_, graph.addEdge_addEdge _ a b w1 w1,
    ?_⟩
  · intro weight
    rw [graph.getWeight_addEdge]
    simp [h2 w2]
  · rw [graph.addEdge_addEdge]
    exact graph.numEdges_addEdge _ a b w2 w1

/-- Witness for C6 (the scenario `addEdge(a,b,5); addEdge(a,b,3)`): vertices 1
and 2, weights 5 then 3. -/
theorem addEdge_overwrite_witness :
    (1 : Int) ∈ (build [Call.addVertex 1, Call.addVertex 2] : graph Int Int).getVertices ∧
    (2 : Int) ∈ (build [Call.addVertex 1, Call.addVertex 2] : graph Int Int).getVertices ∧
    ((((build [Call.addVertex 1, Call.addVertex 2] : graph Int Int).addEdge 1 2 5).2.addEdge
      1 2 3).2.getWeight 1 2 0 = (true, 3)) :=
  ⟨by decide, by decide,
    (addEdge_overwrite [Call.addVertex 1, Call.addVertex 2] (1 : Int) 2 (5 : Int) 3
      (by decide) (by decide)).2.2.2.1 0⟩

/-- C7: on every graph state, `addVertex(v)` returns true exactly when `v` is
not in `getVertices()`; after the call `v` is in `getVertices()`; when it
returns false the graph is unchanged; a second `addVertex(v)` returns false
and leaves the graph that the first call left. -/
theorem addVertex_spec (calls : List (Call V W)) (v : V) :
    (((build calls).addVertex v).1 = true ↔ v ∉ (build calls).getVertices) ∧
    v ∈ ((build calls).addVertex v).2.getVertices ∧
    (((build calls).addVertex v).1 = false → ((build calls).addVertex v).2 = build calls) ∧
    ((build calls).addVertex v).2.addVertex v = (false, ((build calls).addVertex v).2) := by
  have hG := valid_build calls
  have hG1 := graph.valid_addVertex _ hG v
  have hmem : v ∈ ((build calls).addVertex v).2.getVertices := by
    unfold graph.getVertices
    rw [graph.addVertex_eq]
    by_cases h : mapCount (build calls).AdjList v ≠ 0
    · simpa [h] using (hG.vertices_iff v).mpr h
    · simp [h]
  refine ⟨?_, hmem, ?_, ?_⟩
  · unfold graph.getVertices
    rw [hG.vertices_iff, graph.addVertex_eq]
    by_cases h : mapCount (build calls).AdjList v ≠ 0
    · simp [h]
    · simp [h]
  · rw [graph.addVertex_eq]
    by_cases h : mapCount (build calls).AdjList v ≠ 0
    · simp [h]
    · simp [h]
  · have h2 : mapCount ((build calls).addVertex v).2.AdjList v ≠ 0 :=
      (hG1.vertices_iff v).mp hmem
    rw [graph.addVertex_eq ((build calls).addVertex v).2]
    simp [h2]

/-- C8: on every graph built from the empty graph by calls of `addVertex` and
`addEdge`, `getWeight(src, dst, weight)` returns true with the weight of the
most recent successful `addEdge(src, dst, .)` of the sequence, and returns
false with `weight` untouched when there was none; it returns false with
`weight` untouched when `src` or `dst` is not a vertex; a further
`addEdge(a, b, w)` leaves the result of `getWeight(b, a)` for `a ≠ b`, and of
`getWeight(x, y)` for every pair `(x, y) ≠ (a, b)`, as it was. -/
theorem getWeight_spec (calls : List (Call V W)) :
    (∀ src dst weight, (build calls).getWeight src dst weight =
      match lastAddEdge src dst graph.empty none calls with
      | some w => (true, w)
      | none => (false, weight)) ∧
    (∀ src dst weight,
      src ∉ (build calls).getVertices ∨ dst ∉ (build calls).getVertices →
      (build calls).getWeight src dst weight = (false, weight)) ∧
    (∀ a b w weight, a ≠ b →
      ((build calls).addEdge a b w).2.getWeight b a weight =
        (build calls).getWeight b a weight) ∧
    (∀ a b w x y weight, (x, y) ≠ (a, b) →
      ((build calls).addEdge a b w).2.getWeight x y weight =
        (build calls).getWeight x y weight) := by
  have hG := valid_build calls
  have key : ∀ a b w x y weight, (x, y) ≠ (a, b) →
      ((build calls).addEdge a b w).2.getWeight x y weight =
        (build calls).getWeight x y weight := by
    intro a b w x y weight hne
    rw [graph.getWeight_addEdge]
    have : ¬ ((((build calls).addEdge a b w).1 = true) ∧ a = x ∧ b = y) := by
      rintro ⟨-, rfl, rfl⟩
      exact hne rfl
    simp [this]
  refine ⟨?_, ?_, ?_, key⟩
  · intro src dst weight
    apply getWeight_buildFrom _ graph.valid_empty
    simp [graph.getWeight, graph.empty, mapCount]
  · intro src dst weight h
    unfold graph.getVertices at h
    rw [hG.vertices_iff, hG.vertices_iff, not_not, not_not] at h
    rw [graph.getWeight_eq]
    simp [h]
  · intro a b w weight hne
    apply key
    intro hh
    exact hne (Prod.mk.inj hh).2

/-- C9: on every graph state, `neighbors(v)` is strictly ascending in
iteration order, so without repeats; it holds `u` exactly when
`getWeight(v, u)` succeeds; it is empty when `v` is not a vertex and when `v`
has no outgoing edge. -/
theorem neighbors_spec (calls : List (Call V W)) (v : V) :
    ((build calls).neighbors v).Sorted (· < ·) ∧
    ((build calls).neighbors v).Nodup ∧
    (∀ u, u ∈ (build calls).neighbors v ↔ ∃ w, (build calls).HasEdge v u w) ∧
    (v ∉ (build calls).getVertices → (build calls).neighbors v = []) ∧
    ((∀ u, (build calls).NoEdge v u) → (build calls).neighbors v = []) := by
  have hG := valid_build calls
  have hmem : ∀ u, u ∈ (build calls).neighbors v ↔ ∃ w, (build calls).HasEdge v u w := by
    intro u
    rw [graph.mem_neighbors]
    constructor
    · intro h
      have h1 : mapCount (build calls).AdjList u ≠ 0 := hG.closed v u h
      have h2 : mapCount (build calls).AdjList v ≠ 0 := by
        intro h0
        rw [graph.row_eq_nil _ v h0] at h
        simp [mapCount] at h
      cases h3 : mapAt ((build calls).row v) u with
      | none => exact absurd ((mapCount_eq_zero_iff _ _).mpr h3) h
      | some w => exact ⟨w, (graph.hasEdge_iff _ v u w).mpr ⟨h2, h1, h3⟩⟩
    · rintro ⟨w, hw⟩
      have := ((graph.hasEdge_iff _ v u w).mp hw).2.2
      rw [ne_eq, mapCount_eq_zero_iff, this]
      simp
  have hs := graph.neighbors_pairwise (build calls) v
  refine ⟨hs, ?_, hmem, ?_, ?_⟩
  · exact hs.imp (fun h => ne_of_lt h)
  · intro h
    unfold graph.getVertices at h
    rw [hG.vertices_iff, not_not] at h
    unfold graph.neighbors
    simp [h]
  · intro h
    apply List.eq_nil_iff_forall_not_mem.mpr
    intro u hu
    obtain ⟨w, hw⟩ := (hmem u).mp hu
    exact ((graph.noEdge_iff _ v u).mp (h u)) w hw

theorem mem_firstOccurrences (l : List V) (x : V) : x ∈ firstOccurrences l ↔ x ∈ l := by
  induction l with
  | nil => simp [firstOccurrences]
  | cons a rest ih =>
    simp only [firstOccurrences, List.mem_cons, List.mem_filter, ih, decide_eq_true_eq]
    by_cases h : x = a
    · simp [h]
    · simp [h]

/-- C10: for every sequence of `addVertex` and `addEdge` calls applied to the
empty graph, `getVertices()` is the sequence of the `addVertex` arguments with
the repeats of earlier ones removed: it has no repeats, holds exactly the
identifiers passed to `addVertex`, and a further `addEdge` call leaves it as
it was. -/
theorem getVertices_spec (calls : List (Call V W)) :
    (build calls).getVertices = firstOccurrences (addVertexArgs calls) ∧
    (build calls).getVertices.Nodup ∧
    (∀ v, v ∈ (build calls).getVertices ↔ v ∈ addVertexArgs calls) ∧
    (∀ a b w, ((build calls).addEdge a b w).2.getVertices = (build calls).getVertices) := by
  have heq : (build calls).getVertices = firstOccurrences (addVertexArgs calls) := by
    have := getVertices_buildFrom (graph.empty : graph V W) graph.valid_empty calls
    simpa [graph.getVertices, build, graph.empty] using this
  refine ⟨heq, (valid_build calls).nodup, ?_, ?_⟩
  · intro v
    rw [heq, mem_firstOccurrences]
  · intro a b w
    unfold graph.getVertices
    rw [graph.addEdge_eq]; split <;> rfl

end GraphContract

/-! ## Walks and routes -/

section WalkLemmas

variable {W : Type} [LinearOrderedAddCommGroup W]

theorem graph.hasEdge_unique {V U : Type} [LinearOrder V] (G : graph V U) {u v : V} {w1 w2 : U}
    (h1 : G.HasEdge u v w1) (h2 : G.HasEdge u v w2) : w1 = w2 := by
  have a := h1 w1
  rw [h2 w1] at a
  exact (Prod.mk.inj a).2.symm

theorem graph.hasEdge_vertices {V U : Type} [LinearOrder V] (G : graph V U) (hG : G.Valid)
    {u v : V} {w : U} (h : G.HasEdge u v w) : u ∈ G.getVertices ∧ v ∈ G.getVertices := by
  have := (graph.hasEdge_iff G u v w).mp h
  exact ⟨(hG.vertices_iff u).mpr this.1, (hG.vertices_iff v).mpr this.2.1⟩

theorem graph.hasEdge_of_mem_neighbors {V U : Type} [LinearOrder V] (G : graph V U)
    (hG : G.Valid) {u v : V} (h : v ∈ G.neighbors u) : ∃ w, G.HasEdge u v w := by
  rw [graph.mem_neighbors] at h
  have h1 : mapCount G.AdjList v ≠ 0 := hG.closed u v h
  have h2 : mapCount G.AdjList u ≠ 0 := by
    intro h0
    rw [graph.row_eq_nil _ u h0] at h
    simp [mapCount] at h
  cases h3 : mapAt (G.row u) v with
  | none => exact absurd ((mapCount_eq_zero_iff _ _).mpr h3) h
  | some w => exact ⟨w, (graph.hasEdge_iff _ u v w).mpr ⟨h2, h1, h3⟩⟩

theorem graph.mem_neighbors_of_hasEdge {V U : Type} [LinearOrder V] (G : graph V U)
    {u v : V} {w : U} (h : G.HasEdge u v w) : v ∈ G.neighbors u := by
  rw [graph.mem_neighbors]
  have := ((graph.hasEdge_iff _ u v w).mp h).2.2
  rw [ne_eq, mapCount_eq_zero_iff, this]
  simp

theorem Walk.source_mem {G : graph Int W} {s v : Int} {c : W} (h : Walk G s v c) :
    s ∈ G.getVertices := by
  induction h with
  | nil hs => exact hs
  | snoc _ _ ih => exact ih

theorem Walk.target_mem {G : graph Int W} (hG : G.Valid) {s v : Int} {c : W}
    (h : Walk G s v c) : v ∈ G.getVertices := by
  cases h with
  | nil hs => exact hs
  | snoc _ he => exact (graph.hasEdge_vertices G hG he).2

theorem Walk.nonneg {G : graph Int W} (hw : ∀ u v w, G.HasEdge u v w → 0 ≤ w) {s v : Int}
    {c : W} (h : Walk G s v c) : 0 ≤ c := by
  induction h with
  | nil _ => exact le_refl 0
  | snoc _ he ih => exact add_nonneg ih (hw _ _ _ he)

theorem Walk.cons {G : graph Int W} {u v d : Int} {w c : W} (hu : u ∈ G.getVertices)
    (he : G.HasEdge u v w) (h : Walk G v d c) : Walk G u d (w + c) := by
  induction h with
  | nil _ =>
    have := Walk.snoc (Walk.nil hu) he
    simpa using this
  | snoc _ he2 ih =>
    have := Walk.snoc ih he2
    rw [add_assoc] at this
    exact this

theorem routeWeight_cons_cons (G : graph Int W) (u v : Int) (rest : List Int) :
    routeWeight G (u :: v :: rest) =
      if (G.getWeight u v 0).1 = true then
        (routeWeight G (v :: rest)).map fun c => (G.getWeight u v 0).2 + c
      else none := by
  simp [routeWeight]

theorem walk_of_route (G : graph Int W) (p : List Int) (s d : Int) (c : W)
    (hp : IsRoute G s d p) (hc : routeWeight G p = some c) : Walk G s d c := by
  induction p generalizing s c with
  | nil => simp [IsRoute] at hp
  | cons a rest ih =>
    obtain ⟨h1, h2, h3, h4⟩ := hp
    simp only [List.head?_cons, Option.some.injEq] at h1
    subst h1
    cases rest with
    | nil =>
      simp only [List.getLast?_singleton, Option.some.injEq] at h2
      subst h2
      simp only [routeWeight, Option.some.injEq] at hc
      subst hc
      exact Walk.nil (h3 _ (List.mem_cons_self _ _))
    | cons b rest2 =>
      rw [routeWeight_cons_cons] at hc
      by_cases hg : (G.getWeight a b 0).1 = true
      · simp only [hg, if_true, Option.map_eq_some'] at hc
        obtain ⟨c2, hc2, hc3⟩ := hc
        have he := (graph.getWeight_fst_iff G a b 0).mp hg
        have hr : IsRoute G b d (b :: rest2) := by
          refine ⟨rfl, ?_, ?_, ?_⟩
          · simpa [List.getLast?_cons_cons] using h2
          · intro v hv; exact h3 v (List.mem_cons_of_mem _ hv)
          · rw [hc2]; rfl
        have := Walk.cons (h3 _ (List.mem_cons_self _ _)) he (ih b c2 hr hc2)
        rw [hc3] at this
        exact this
      · simp [hg] at hc

theorem routeWeight_append (G : graph Int W) (p : List Int) (v x : Int) (c w : W)
    (hc : routeWeight G p = some c) (hl : p.getLast? = some v) (he : G.HasEdge v x w) :
    routeWeight G (p ++ [x]) = some (c + w) := by
  induction p generalizing c with
  | nil => simp at hl
  | cons a rest ih =>
    cases rest with
    | nil =>
      simp only [List.getLast?_singleton, Option.some.injEq] at hl
      subst hl
      simp only [routeWeight, Option.some.injEq] at hc
      subst hc
      simp [routeWeight, he 0]
    | cons b rest2 =>
      rw [routeWeight_cons_cons] at hc
      by_cases hg : (G.getWeight a b 0).1 = true
      · simp only [hg, if_true, Option.map_eq_some'] at hc
        obtain ⟨c2, hc2, hc3⟩ := hc
        have hl2 : (b :: rest2).getLast? = some v := by
          simpa [List.getLast?_cons_cons] using hl
        have := ih c2 hc2 hl2
        simp only [List.cons_append] at this ⊢
        rw [routeWeight_cons_cons, this]
        simp [hg, ← hc3, add_assoc]
      · simp [hg] at hc

theorem route_of_walk (G : graph Int W) (hG : G.Valid) {s d : Int} {c : W}
    (h : Walk G s d c) : ∃ p, IsRoute G s d p ∧ routeWeight G p = some c := by
  induction h with
  | nil hs =>
    refine ⟨[s], ⟨rfl, rfl, ?_, rfl⟩, rfl⟩
    intro v hv
    simp only [List.mem_singleton] at hv
    rw [hv]; exact hs
  | @snoc v x c w _ he ih =>
    obtain ⟨p, ⟨h1, h2, h3, h4⟩, hc⟩ := ih
    have hc2 := routeWeight_append G p v x c w hc h2 he
    refine ⟨p ++ [x], ⟨?_, ?_, ?_, ?_⟩, hc2⟩
    · cases p with
      | nil => simp at h1
      | cons a rest => simpa using h1
    · simp
    · intro y hy
      rcases List.mem_append.mp hy with hy | hy
      · exact h3 y hy
      · simp only [List.mem_singleton] at hy
        rw [hy]; exact (graph.hasEdge_vertices G hG he).2
    · rw [hc2]; rfl

theorem reachable_iff_walk (G : graph Int W) (hG : G.Valid) (s d : Int) :
    Reachable G s d ↔ ∃ c, Walk G s d c := by
  constructor
  · rintro ⟨p, hp⟩
    cases hc : routeWeight G p with
    | none => have := hp.2.2.2; rw [hc] at this; simp at this
    | some c => exact ⟨c, walk_of_route G p s d c hp hc⟩
  · rintro ⟨c, hc⟩
    obtain ⟨p, hp, _⟩ := route_of_walk G hG hc
    exact ⟨p, hp⟩

end WalkLemmas

/-! ## The frontier queue and termination of the search loop -/

section LoopLemmas

variable {W : Type} [LinearOrderedAddCommGroup W]

theorem pqTop_eq_none (q : List (Int × WithTop W)) : pqTop q = none ↔ q = [] := by
  cases q with
  | nil => simp [pqTop]
  | cons p rest =>
    simp only [pqTop]
    cases pqTop rest with
    | none => simp
    | some t => by_cases h : prioritize p t = true <;> simp [h]

theorem pqTop_spec (q : List (Int × WithTop W)) (t : Int × WithTop W) (h : pqTop q = some t) :
    t ∈ q ∧ ∀ p ∈ q, t.2 ≤ p.2 := by
  induction q generalizing t with
  | nil => simp [pqTop] at h
  | cons p rest ih =>
    simp only [pqTop] at h
    cases hr : pqTop rest with
    | none =>
      rw [hr] at h
      simp only [Option.some.injEq] at h
      subst h
      have := (pqTop_eq_none rest).mp hr
      subst this
      simp
    | some t0 =>
      rw [hr] at h
      obtain ⟨h1, h2⟩ := ih t0 hr
      by_cases hp : prioritize p t0 = true
      · simp only [hp, if_true, Option.some.injEq] at h
        subst h
        refine ⟨List.mem_cons_of_mem _ h1, ?_⟩
        intro x hx
        rcases List.mem_cons.mp hx with rfl | hx
        · unfold prioritize at hp
          by_cases he : x.2 = t0.2
          · exact le_of_eq he.symm
          · simp only [he, if_false, decide_eq_true_eq] at hp
            exact le_of_lt hp
        · exact h2 x hx
      · simp only [hp, if_false, Option.some.injEq, Bool.false_eq_true] at h
        subst h
        have hle : p.2 ≤ t0.2 := by
          unfold prioritize at hp
          by_cases he : p.2 = t0.2
          · exact le_of_eq he
          · simp only [he, if_false, decide_eq_true_eq, not_lt] at hp
            exact hp
        refine ⟨List.mem_cons_self _ _, ?_⟩
        intro x hx
        rcases List.mem_cons.mp hx with rfl | hx
        · exact le_refl _
        · exact le_trans hle (h2 x hx)

theorem relaxStep_visited (G : graph Int W) (cur : Int) (st : DijkstraState W) (e : Int) :
    (relaxStep G cur st e).visited = st.visited := by
  unfold relaxStep
  simp only
  split <;> rfl

theorem relaxStep_queue_length (G : graph Int W) (cur : Int) (st : DijkstraState W) (e : Int) :
    (relaxStep G cur st e).unvisitedQueue.length ≤ st.unvisitedQueue.length + 1 := by
  unfold relaxStep
  simp only
  split
  · simp
  · omega

theorem foldl_relaxStep_visited (G : graph Int W) (cur : Int) (l : List Int)
    (st : DijkstraState W) : (l.foldl (relaxStep G cur) st).visited = st.visited := by
  induction l generalizing st with
  | nil => rfl
  | cons e rest ih => rw [List.foldl_cons, ih, relaxStep_visited]

theorem foldl_relaxStep_queue_length (G : graph Int W) (cur : Int) (l : List Int)
    (st : DijkstraState W) :
    (l.foldl (relaxStep G cur) st).unvisitedQueue.length ≤
      st.unvisitedQueue.length + l.length := by
  induction l generalizing st with
  | nil => simp
  | cons e rest ih =>
    have h1 := ih (relaxStep G cur st e)
    have h2 := relaxStep_queue_length G cur st e
    simp only [List.foldl_cons, List.length_cons]
    omega

theorem remaining_visit {U : Type} (L : List (Int × List U)) (vis : List Int) (v : Int)
    (hv : v ∉ vis) :
    ((L.filter (fun e => decide (e.1 ∉ vis ++ [v]))).map (fun e => e.2.length)).sum +
        ((mapAt L v).getD []).length ≤
      ((L.filter (fun e => decide (e.1 ∉ vis))).map (fun e => e.2.length)).sum := by
  induction L with
  | nil => simp [mapAt]
  | cons e rest ih =>
    by_cases h : e.1 = v
    · have h1 : e.1 ∉ vis := by rw [h]; exact hv
      simp only [List.filter_cons, List.mem_append, List.mem_singleton, h, or_true,
        not_true, decide_False, hv, not_false_eq_true, decide_True, if_true, mapAt,
        Option.getD_some, List.map_cons, List.sum_cons]
      simp only [List.mem_append, List.mem_singleton] at ih
      have : ((rest.filter (fun e => decide (¬ (e.1 ∈ vis ∨ e.1 = v)))).map
          (fun e => e.2.length)).sum ≤
          ((rest.filter (fun e => decide (e.1 ∉ vis))).map (fun e => e.2.length)).sum := by omega
      simp only [Bool.false_eq_true, if_false]
      omega
    · simp only [List.mem_append, List.mem_singleton] at ih
      by_cases h1 : e.1 ∈ vis
      · simp only [List.filter_cons, List.mem_append, List.mem_singleton, h, or_false, h1,
          not_true, decide_False, mapAt, if_false, Bool.false_eq_true]
        exact ih
      · simp only [List.filter_cons, List.mem_append, List.mem_singleton, h, or_false, h1,
          not_false_eq_true, decide_True, if_true, mapAt, if_false, List.map_cons,
          List.sum_cons]
        omega

theorem loopBody_measure (G : graph Int W) (st st1 : DijkstraState W)
    (h : loopBody G st = some st1) : loopMeasure G st1 < loopMeasure G st := by
  unfold loopBody at h
  cases ht : pqTop st.unvisitedQueue with
  | none => simp [ht] at h
  | some cur =>
    have hmem := (pqTop_spec _ _ ht).1
    have hlen : (st.unvisitedQueue.erase cur).length + 1 = st.unvisitedQueue.length := by
      rw [List.length_erase_of_mem hmem]
      have := List.length_pos_of_mem hmem
      omega
    simp only [ht] at h
    by_cases hb : st.distances cur.1 = INF
    · simp [hb] at h
    · by_cases hv : cur.1 ∈ st.visited
      · simp only [hb, hv, if_false, if_true, Option.some.injEq] at h
        subst h
        unfold loopMeasure
        simp only
        omega
      · simp only [hb, hv, if_false, Option.some.injEq] at h
        subst h
        unfold loopMeasure
        rw [foldl_relaxStep_visited]
        have h1 := foldl_relaxStep_queue_length G cur.1 (G.neighbors cur.1)
          { st with unvisitedQueue := st.unvisitedQueue.erase cur,
                    visited := st.visited ++ [cur.1] }
        have h2 := graph.neighbors_length_le G cur.1
        have h3 := remaining_visit G.AdjList st.visited cur.1 hv
        simp only [graph.row] at h2
        simp only at h1 ⊢
        omega

theorem dijkstraLoop_isSome (G : graph Int W) (fuel : Nat) (st : DijkstraState W)
    (h : loopMeasure G st < fuel) : ∃ st1, dijkstraLoop G fuel st = some st1 := by
  induction fuel generalizing st with
  | zero => omega
  | succ n ih =>
    unfold dijkstraLoop
    cases hb : loopBody G st with
    | none => exact ⟨st, rfl⟩
    | some st1 =>
      have := loopBody_measure G st st1 hb
      exact ih st1 (by omega)

theorem dijkstraLoop_inv (G : graph Int W) (P : DijkstraState W → Prop)
    (hP : ∀ a b, P a → loopBody G a = some b → P b) (fuel : Nat) (st st1 : DijkstraState W)
    (h0 : P st) (h : dijkstraLoop G fuel st = some st1) : P st1 ∧ loopBody G st1 = none := by
  induction fuel generalizing st with
  | zero => simp [dijkstraLoop] at h
  | succ n ih =>
    unfold dijkstraLoop at h
    cases hb : loopBody G st with
    | none =>
      simp only [hb, Option.some.injEq] at h
      subst h
      exact ⟨h0, hb⟩
    | some st2 =>
      simp only [hb] at h
      exact ih st2 (hP st st2 h0 hb) h

omit [LinearOrderedAddCommGroup W] in
theorem foldl_initStep (l : List Int) (st : DijkstraState W) :
    (l.foldl initStep st).visited = st.visited ∧
    (∀ v ∈ l, (l.foldl initStep st).distances v = ⊤ ∧
      (l.foldl initStep st).predeccesors v = INF2) ∧
    (∀ v, v ∉ l → (l.foldl initStep st).distances v = st.distances v ∧
      (l.foldl initStep st).predeccesors v = st.predeccesors v) ∧
    (∀ p ∈ (l.foldl initStep st).unvisitedQueue,
      p ∈ st.unvisitedQueue ∨ (p.1 ∈ l ∧ p.2 = ⊤)) ∧
    (l.foldl initStep st).unvisitedQueue.length = st.unvisitedQueue.length + l.length := by
  induction l generalizing st with
  | nil => simp
  | cons e rest ih =>
    obtain ⟨h1, h2, h3, h4, h5⟩ := ih (initStep st e)
    simp only [List.foldl_cons]
    refine ⟨?_, ?_, ?_, ?_, ?_⟩
    · rw [h1]; rfl
    · intro v hv
      by_cases hr : v ∈ rest
      · exact h2 v hr
      · have hve : v = e := by
          rcases List.mem_cons.mp hv with h | h
          · exact h
          · exact absurd h hr
        have := h3 v hr
        rw [this.1, this.2, hve]
        simp [initStep, INF]
    · intro v hv
      have hr : v ∉ rest := fun h => hv (List.mem_cons_of_mem _ h)
      have hne : v ≠ e := fun h => hv (h ▸ List.mem_cons_self _ _)
      have := h3 v hr
      rw [this.1, this.2]
      simp [initStep, Function.update_noteq hne]
    · intro q hq
      rcases h4 q hq with h | h
      · simp only [initStep, List.mem_cons] at h
        rcases h with h | h
        · right
          rw [h]
          exact ⟨List.mem_cons_self _ _, rfl⟩
        · exact Or.inl h
      · exact Or.inr ⟨List.mem_cons_of_mem _ h.1, h.2⟩
    · rw [h5]
      simp only [initStep, List.length_cons]
      omega

theorem dijkstraInit_spec (G : graph Int W) (s : Int) (d0 : Int → WithTop W) (p0 : Int → Int) :
    (dijkstraInit G s d0 p0).visited = [] ∧
    (dijkstraInit G s d0 p0).distances s = 0 ∧
    (∀ v ∈ G.getVertices, v ≠ s → (dijkstraInit G s d0 p0).distances v = ⊤) ∧
    (∀ v ∈ G.getVertices, (dijkstraInit G s d0 p0).predeccesors v = INF2) ∧
    (∀ p ∈ (dijkstraInit G s d0 p0).unvisitedQueue,
      p = (s, 0) ∨ (p.1 ∈ G.getVertices ∧ p.2 = ⊤)) ∧
    (s, (0 : WithTop W)) ∈ (dijkstraInit G s d0 p0).unvisitedQueue ∧
    (dijkstraInit G s d0 p0).unvisitedQueue.length = G.getVertices.length + 1 := by
  obtain ⟨h1, h2, h3, h4, h5⟩ := foldl_initStep G.getVertices
    (⟨d0, p0, [], []⟩ : DijkstraState W)
  unfold dijkstraInit
  simp only
  refine ⟨h1, ?_, ?_, ?_, ?_, ?_, ?_⟩
  · simp
  · intro v hv hne
    rw [Function.update_noteq hne]
    exact (h2 v hv).1
  · intro v hv
    exact (h2 v hv).2
  · intro q hq
    rcases List.mem_cons.mp hq with h | h
    · exact Or.inl h
    · rcases h4 q h with h | h
      · simp at h
      · exact Or.inr h
  · exact List.mem_cons_self _ _
  · simp only [List.length_cons, h5, List.length_nil]
    omega

theorem loopMeasure_init (G : graph Int W) (s : Int) (d0 : Int → WithTop W) (p0 : Int → Int) :
    loopMeasure G (dijkstraInit G s d0 p0) = G.getVertices.length + 1 + G.NumEdges := by
  obtain ⟨h1, -, -, -, -, -, h7⟩ := dijkstraInit_spec G s d0 p0
  unfold loopMeasure
  rw [h1, h7, graph.numEdges_eq_sum]
  simp

/-- The search loop ends within the fuel that `DijkstraAlgo` gives it, on
every graph and for all weights. -/
theorem DijkstraAlgo_isSome (G : graph Int W) (s : Int) (d0 : Int → WithTop W)
    (p0 : Int → Int) :
    ∃ st, dijkstraLoop G (G.getVertices.length + 1 + G.NumEdges + 1) (dijkstraInit G s d0 p0) =
        some st ∧
      DijkstraAlgo G s d0 p0 = some (st.visited, st.distances, st.predeccesors) := by
  obtain ⟨st, hst⟩ := dijkstraLoop_isSome G (G.getVertices.length + 1 + G.NumEdges + 1)
    (dijkstraInit G s d0 p0) (by rw [loopMeasure_init]; omega)
  exact ⟨st, hst, by simp [DijkstraAlgo, hst]⟩

/-! ### Facts of the search that hold for all weights -/

theorem reachInv_init (G : graph Int W) (s : Int) (hs : s ∈ G.getVertices)
    (d0 : Int → WithTop W) (p0 : Int → Int) : ReachInv G s (dijkstraInit G s d0 p0) := by
  obtain ⟨h1, h2, h3, h4, h5, -, -⟩ := dijkstraInit_spec G s d0 p0
  refine ⟨?_, ?_, ?_⟩
  · intro q hq
    rcases h5 q hq with h | h
    · rw [h]; exact hs
    · exact h.1
  · intro v hv
    rw [h1] at hv
    simp at hv
  · intro v hv h
    by_cases hvs : v = s
    · rw [hvs]; exact ⟨0, Walk.nil hs⟩
    · rcases h with h | h
      · exact absurd (h3 v hv hvs) h
      · exact absurd (h4 v hv) h

theorem reachInv_relaxStep (G : graph Int W) (hG : G.Valid) (s cur : Int)
    (st : DijkstraState W) (e : Int) (h : ReachInv G s st) (hcur : ∃ c, Walk G s cur c)
    (he : e ∈ G.neighbors cur) : ReachInv G s (relaxStep G cur st e) := by
  obtain ⟨w, hw⟩ := graph.hasEdge_of_mem_neighbors G hG he
  obtain ⟨c, hc⟩ := hcur
  have hwalk : ∃ c, Walk G s e c := ⟨c + w, Walk.snoc hc hw⟩
  unfold relaxStep
  simp only
  split
  · refine ⟨?_, h.visited_walk, ?_⟩
    · intro q hq
      rcases List.mem_cons.mp hq with hq | hq
      · rw [hq]; exact (graph.hasEdge_vertices G hG hw).2
      · exact h.queue_vertex q hq
    · intro v hv hfin
      by_cases hve : v = e
      · rw [hve]; exact hwalk
      · simp only [Function.update_noteq hve] at hfin
        exact h.finite_walk v hv hfin
  · exact h

theorem reachInv_foldl_relaxStep (G : graph Int W) (hG : G.Valid) (s cur : Int) (l : List Int)
    (st : DijkstraState W) (h : ReachInv G s st) (hcur : ∃ c, Walk G s cur c)
    (hl : ∀ e ∈ l, e ∈ G.neighbors cur) : ReachInv G s (l.foldl (relaxStep G cur) st) := by
  induction l generalizing st with
  | nil => exact h
  | cons e rest ih =>
    rw [List.foldl_cons]
    exact ih _ (reachInv_relaxStep G hG s cur st e h hcur (hl e (List.mem_cons_self _ _)))
      (fun x hx => hl x (List.mem_cons_of_mem _ hx))

theorem reachInv_loopBody (G : graph Int W) (hG : G.Valid) (s : Int) (st st1 : DijkstraState W)
    (h : ReachInv G s st) (hb : loopBody G st = some st1) : ReachInv G s st1 := by
  unfold loopBody at hb
  cases ht : pqTop st.unvisitedQueue with
  | none => simp [ht] at hb
  | some cur =>
    have hmem := (pqTop_spec _ _ ht).1
    simp only [ht] at hb
    have hq : ∀ p ∈ st.unvisitedQueue.erase cur, p.1 ∈ G.getVertices := fun p hp =>
      h.queue_vertex p (List.mem_of_mem_erase hp)
    by_cases hbr : st.distances cur.1 = INF
    · simp [hbr] at hb
    · by_cases hv : cur.1 ∈ st.visited
      · simp only [hbr, hv, if_false, if_true, Option.some.injEq] at hb
        subst hb
        exact ⟨hq, h.visited_walk, h.finite_walk⟩
      · simp only [hbr, hv, if_false, Option.some.injEq] at hb
        subst hb
        have hcur : ∃ c, Walk G s cur.1 c :=
          h.finite_walk cur.1 (h.queue_vertex cur hmem) (Or.inl hbr)
        apply reachInv_foldl_relaxStep G hG s cur.1 _ _ _ hcur (fun e he => he)
        refine ⟨hq, ?_, h.finite_walk⟩
        intro v hv2
        rcases List.mem_append.mp hv2 with hv2 | hv2
        · exact h.visited_walk v hv2
        · simp only [List.mem_singleton] at hv2
          rw [hv2]; exact hcur

end LoopLemmas

/-! ## Unreachable destinations -/

section Unreachable

variable {W : Type} [LinearOrderedAddCommGroup W]

/-- C3: for every graph, whatever its weights, every source `s` and every
vertex `v` of the graph that is not reachable from `s`: `DijkstraAlgo`
returns, with `distances[v]` equal to `INF` and `predeccesors[v]` equal to
`INF2`, and the reconstruction step for destination `v` reports that the
destination is unreachable and prints no path. -/
theorem DijkstraAlgo_unreachable (calls : List (Call Int W)) (s v : Int)
    (d0 : Int → WithTop W) (p0 : Int → Int) (fuel : Nat)
    (hs : s ∈ (build calls).getVertices) (hv : v ∈ (build calls).getVertices)
    (hnr : ¬ Reachable (build calls) s v) :
    ∃ visited distances predeccesors,
      DijkstraAlgo (build calls) s d0 p0 = some (visited, distances, predeccesors) ∧
      distances v = INF ∧ predeccesors v = INF2 ∧
      reconstructPath fuel distances predeccesors s v = some RouteOutput.unreachable := by
  have hG := valid_build calls
  obtain ⟨st, hloop, hres⟩ := DijkstraAlgo_isSome (build calls) s d0 p0
  have hinv := (dijkstraLoop_inv (build calls) (ReachInv (build calls) s)
    (fun a b ha hb => reachInv_loopBody (build calls) hG s a b ha hb) _ _ st
    (reachInv_init (build calls) s hs d0 p0) hloop).1
  have hnw : ¬ ∃ c, Walk (build calls) s v c := fun h =>
    hnr ((reachable_iff_walk (build calls) hG s v).mpr h)
  have hd : st.distances v = ⊤ := by
    by_contra h
    exact hnw (hinv.finite_walk v hv (Or.inl h))
  have hp : st.predeccesors v = INF2 := by
    by_contra h
    exact hnw (hinv.finite_walk v hv (Or.inr h))
  refine ⟨st.visited, st.distances, st.predeccesors, hres, hd, hp, ?_⟩
  simp [reconstructPath, hd, INF]

theorem scenarioGraph_walk (v : Int) (c : Int) (h : Walk scenarioGraph 1 v c) :
    v ∈ [(1 : Int), 2, 3, 4] := by
  induction h with
  | nil _ => decide
  | @snoc v x c w _ he ih =>
    have hx := graph.mem_neighbors_of_hasEdge scenarioGraph he
    have key : ∀ a ∈ [(1 : Int), 2, 3, 4], ∀ b ∈ scenarioGraph.neighbors a,
        b ∈ [(1 : Int), 2, 3, 4] := by decide
    exact key v ih x hx

theorem scenarioGraph_unreachable : ¬ Reachable scenarioGraph 1 5 := by
  intro h
  obtain ⟨c, hc⟩ := (reachable_iff_walk scenarioGraph (valid_build _) 1 5).mp h
  have := scenarioGraph_walk 5 c hc
  revert this
  decide

/-- Witness for C3: the scenario graph with the isolated vertex 5, source 1,
destination 5, and maps that are empty before the call. -/
theorem DijkstraAlgo_unreachable_witness :
    (1 : Int) ∈ scenarioGraph.getVertices ∧ (5 : Int) ∈ scenarioGraph.getVertices ∧
    ¬ Reachable scenarioGraph 1 5 ∧
    ∃ visited distances predeccesors,
      DijkstraAlgo scenarioGraph 1 (fun _ => 0) (fun _ => 0) =
        some (visited, distances, predeccesors) ∧
      distances 5 = INF ∧ predeccesors 5 = INF2 ∧
      reconstructPath 5 distances predeccesors 1 5 = some RouteOutput.unreachable :=
  ⟨by decide, by decide, scenarioGraph_unreachable,
    DijkstraAlgo_unreachable _ 1 5 (fun _ => 0) (fun _ => 0) 5 (by decide) (by decide)
      scenarioGraph_unreachable⟩

end Unreachable

/-! ## The loop invariant on non-negative weights -/

section Correctness

variable {W : Type} [LinearOrderedAddCommGroup W]

theorem predPath_congr (p1 p2 : Int → Int) (s v : Int) (p : List Int)
    (h : PredPath p1 s v p) (hagree : ∀ x ∈ p, p2 x = p1 x) : PredPath p2 s v p := by
  induction h with
  | base => exact PredPath.base
  | @step v p hne hp ih =>
    have h1 := ih (fun x hx => hagree x (List.mem_append_left _ hx))
    have h2 : p2 v = p1 v := hagree v (List.mem_append_right _ (List.mem_singleton_self v))
    rw [← h2] at h1
    exact PredPath.step hne h1

theorem dijkstraInv_init (G : graph Int W) (s : Int) (hs : s ∈ G.getVertices)
    (d0 : Int → WithTop W) (p0 : Int → Int) :
    DijkstraInv G s [] (dijkstraInit G s d0 p0) := by
  obtain ⟨h1, h2, h3, h4, h5, h6, -⟩ := dijkstraInit_spec G s d0 p0
  have hfin : ∀ v ∈ G.getVertices, (dijkstraInit G s d0 p0).distances v ≠ ⊤ → v = s := by
    intro v hv hne
    by_contra hvs
    exact hne (h3 v hv hvs)
  refine ⟨h2, h4 s hs, ?_, ?_, ?_, ?_, ?_, ?_, ?_, ?_, ?_, ?_, ?_⟩
  · intro q hq
    rcases h5 q hq with h | h
    · rw [h]; exact hs
    · exact h.1
  · intro q hq
    rcases h5 q hq with h | h
    · rw [h, h2]
    · rw [h.2]; exact le_top
  · intro v hv _ hne
    rw [hfin v hv hne, h2]
    exact h6
  · intro v hv; rw [h1] at hv; simp at hv
  · rw [h1]; exact List.nodup_nil
  · intro v hv hne
    rw [hfin v hv hne, h2]
    exact ⟨0, Walk.nil hs, rfl⟩
  · intro v hv; rw [h1] at hv; simp at hv
  · intro v hv; rw [h1] at hv; simp at hv
  · intro v hv hvs hne
    exact absurd (hfin v hv hne) hvs
  · intro v hv _
    exact h4 v hv
  · intro v hv; rw [h1] at hv; simp at hv

theorem dijkstraInv_relaxStep (G : graph Int W) (hG : G.Valid)
    (hw : ∀ u v w, G.HasEdge u v w → 0 ≤ w) (s cur e : Int) (todo : List (Int × Int))
    (st : DijkstraState W) (h : DijkstraInv G s ((cur, e) :: todo) st)
    (hcur : cur ∈ st.visited) (he : e ∈ G.neighbors cur) :
    DijkstraInv G s todo (relaxStep G cur st e) := by
  obtain ⟨w, hew⟩ := graph.hasEdge_of_mem_neighbors G hG he
  have hev := (graph.hasEdge_vertices G hG hew).2
  obtain ⟨hcurV, hcurfin⟩ := h.visited_vertex cur hcur
  obtain ⟨c, hwalk, hdc⟩ := h.walk cur hcurV hcurfin
  have hwalk_e : Walk G s e (c + w) := Walk.snoc hwalk hew
  have hgw : (G.getWeight cur e 0).2 = w := by rw [hew 0]
  have halt : st.distances cur + (w : WithTop W) = ((c + w : W) : WithTop W) := by
    rw [hdc, WithTop.coe_add]
  unfold relaxStep
  simp only [hgw]
  by_cases hlt : st.distances cur + (w : WithTop W) < st.distances e
  · simp only [hlt, if_true]
    have he_nv : e ∉ st.visited := fun hv =>
      not_le.mpr hlt (by rw [halt]; exact h.visited_opt e hv _ hwalk_e)
    have hes : e ≠ s := by
      intro hes
      rw [hes, h.dist_source, halt] at hlt
      have h0 : (0 : W) ≤ c + w := by
        have := Walk.nonneg hw hwalk_e
        exact this
      have h1 : (0 : WithTop W) ≤ ((c + w : W) : WithTop W) := by
        rw [← WithTop.coe_zero]
        exact WithTop.coe_le_coe.mpr h0
      exact not_le.mpr hlt h1
    have hecur : cur ≠ e := fun h1 => he_nv (h1 ▸ hcur)
    have hvis : ∀ v ∈ st.visited, v ≠ e := fun v hv h1 => he_nv (h1 ▸ hv)
    have hle : ∀ v, Function.update st.distances e (st.distances cur + (w : WithTop W)) v ≤
        st.distances v := by
      intro v
      by_cases hve : v = e
      · rw [hve, Function.update_same]; exact le_of_lt hlt
      · rw [Function.update_noteq hve]
    refine ⟨?_, ?_, ?_, ?_, ?_, ?_, ?_, ?_, ?_, ?_, ?_, ?_, ?_⟩
    · simp only
      rw [Function.update_noteq (Ne.symm hes)]; exact h.dist_source
    · simp only
      rw [Function.update_noteq (Ne.symm hes)]; exact h.pred_source
    · intro q hq
      rcases List.mem_cons.mp hq with hq | hq
      · rw [hq]; exact hev
      · exact h.queue_vertex q hq
    · intro q hq
      rcases List.mem_cons.mp hq with hq | hq
      · rw [hq]; simp
      · exact le_trans (hle q.1) (h.queue_bound q hq)
    · intro v hv hnv hne
      simp only at hnv hne ⊢
      by_cases hve : v = e
      · rw [hve, Function.update_same]; exact List.mem_cons_self _ _
      · rw [Function.update_noteq hve] at hne ⊢
        exact List.mem_cons_of_mem _ (h.queue_has v hv hnv hne)
    · intro v hv
      simp only at hv ⊢
      rw [Function.update_noteq (hvis v hv)]
      exact h.visited_vertex v hv
    · exact h.visited_nodup
    · intro v hv hne
      simp only at hne ⊢
      by_cases hve : v = e
      · rw [hve, Function.update_same]
        exact ⟨c + w, hwalk_e, halt⟩
      · rw [Function.update_noteq hve] at hne ⊢
        exact h.walk v hv hne
    · intro v hv c1 hc1
      simp only at hv ⊢
      rw [Function.update_noteq (hvis v hv)]
      exact h.visited_opt v hv c1 hc1
    · intro u hu v w1 huv hnt
      simp only at hu ⊢
      rw [Function.update_noteq (hvis u hu)]
      by_cases hve : v = e
      · rw [hve, Function.update_same]
        by_cases huc : u = cur
        · rw [hve, huc] at huv
          rw [huc, graph.hasEdge_unique G huv hew]
        · have hnt2 : (u, e) ∉ (cur, e) :: todo := by
            intro hm
            rcases List.mem_cons.mp hm with hm | hm
            · exact huc (Prod.mk.inj hm).1
            · exact hnt (hve ▸ hm)
          rw [hve] at huv
          exact le_trans (le_of_lt hlt) (h.relaxed u hu e w1 huv hnt2)
      · rw [Function.update_noteq hve]
        have hnt2 : (u, v) ∉ (cur, e) :: todo := by
          intro hm
          rcases List.mem_cons.mp hm with hm | hm
          · exact hve (Prod.mk.inj hm).2
          · exact hnt hm
        exact h.relaxed u hu v w1 huv hnt2
    · intro v hv hvs hne
      simp only at hne ⊢
      by_cases hve : v = e
      · rw [hve, Function.update_same, Function.update_same, Function.update_noteq hecur]
        exact ⟨hcur, w, hew, rfl⟩
      · rw [Function.update_noteq hve] at hne ⊢
        rw [Function.update_noteq hve]
        obtain ⟨h1, h2⟩ := h.pred v hv hvs hne
        rw [Function.update_noteq (hvis _ h1)]
        exact ⟨h1, h2⟩
    · intro v hv htop
      simp only at htop ⊢
      by_cases hve : v = e
      · rw [hve, Function.update_same, halt] at htop
        exact absurd htop (WithTop.coe_ne_top)
      · rw [Function.update_noteq hve] at htop ⊢
        exact h.pred_top v hv htop
    · intro v hv
      simp only at hv ⊢
      obtain ⟨p, hp1, hp2, hp3⟩ := h.chain v hv
      refine ⟨p, predPath_congr _ _ s v p hp1 ?_, hp2, hp3⟩
      intro x hx
      exact Function.update_noteq (hvis x (hp2 x hx)) _ _
  · simp only [hlt, if_false]
    refine { h with relaxed := ?_ }
    intro u hu v w1 huv hnt
    by_cases hm : (u, v) = (cur, e)
    · obtain ⟨h1, h2⟩ := Prod.mk.inj hm
      rw [h1, h2] at huv ⊢
      rw [graph.hasEdge_unique G huv hew]
      exact not_lt.mp hlt
    · have hnt2 : (u, v) ∉ (cur, e) :: todo := by
        intro hm2
        rcases List.mem_cons.mp hm2 with hm2 | hm2
        · exact hm hm2
        · exact hnt hm2
      exact h.relaxed u hu v w1 huv hnt2

theorem dijkstraInv_foldl_relaxStep (G : graph Int W) (hG : G.Valid)
    (hw : ∀ u v w, G.HasEdge u v w → 0 ≤ w) (s cur : Int) (l : List Int)
    (st : DijkstraState W) (h : DijkstraInv G s (l.map fun e => (cur, e)) st)
    (hcur : cur ∈ st.visited) (hl : ∀ e ∈ l, e ∈ G.neighbors cur) :
    DijkstraInv G s [] (l.foldl (relaxStep G cur) st) := by
  induction l generalizing st with
  | nil => simpa using h
  | cons e rest ih =>
    rw [List.foldl_cons]
    apply ih
    · exact dijkstraInv_relaxStep G hG hw s cur e _ st (by simpa using h) hcur
        (hl e (List.mem_cons_self _ _))
    · rw [relaxStep_visited]; exact hcur
    · exact fun x hx => hl x (List.mem_cons_of_mem _ hx)

theorem dijkstraInv_frontier (G : graph Int W) (hG : G.Valid)
    (hw : ∀ u v w, G.HasEdge u v w → 0 ≤ w) (s : Int) (st : DijkstraState W)
    (h : DijkstraInv G s [] st) (x : Int) (c : W) (hx : Walk G s x c) :
    (∃ y ∈ G.getVertices, y ∉ st.visited ∧ st.distances y ≤ (c : WithTop W)) ∨
      (x ∈ st.visited ∧ st.distances x ≤ (c : WithTop W)) := by
  induction hx with
  | nil hs =>
    by_cases hv : s ∈ st.visited
    · right
      refine ⟨hv, ?_⟩
      rw [h.dist_source]; rfl
    · left
      refine ⟨s, hs, hv, ?_⟩
      rw [h.dist_source]; rfl
  | @snoc v x c w _ he ih =>
    have hcw : (c : WithTop W) ≤ ((c + w : W) : WithTop W) :=
      WithTop.coe_le_coe.mpr (le_add_of_nonneg_right (hw _ _ _ he))
    rcases ih with ⟨y, hy1, hy2, hy3⟩ | ⟨hv, hd⟩
    · exact Or.inl ⟨y, hy1, hy2, le_trans hy3 hcw⟩
    · have h1 : st.distances x ≤ ((c + w : W) : WithTop W) := by
        have := h.relaxed v hv x w he (List.not_mem_nil _)
        rw [WithTop.coe_add]
        exact le_trans this (add_le_add_right hd _)
      by_cases hxv : x ∈ st.visited
      · exact Or.inr ⟨hxv, h1⟩
      · exact Or.inl ⟨x, (graph.hasEdge_vertices G hG he).2, hxv, h1⟩

theorem dijkstraInv_loopBody (G : graph Int W) (hG : G.Valid)
    (hw : ∀ u v w, G.HasEdge u v w → 0 ≤ w) (s : Int) (st st1 : DijkstraState W)
    (h : DijkstraInv G s [] st) (hb : loopBody G st = some st1) : DijkstraInv G s [] st1 := by
  unfold loopBody at hb
  cases ht : pqTop st.unvisitedQueue with
  | none => simp [ht] at hb
  | some cur =>
    obtain ⟨hmem, hmin⟩ := pqTop_spec _ _ ht
    simp only [ht] at hb
    have hqv : ∀ p ∈ st.unvisitedQueue.erase cur, p.1 ∈ G.getVertices := fun p hp =>
      h.queue_vertex p (List.mem_of_mem_erase hp)
    have hqb : ∀ p ∈ st.unvisitedQueue.erase cur, st.distances p.1 ≤ p.2 := fun p hp =>
      h.queue_bound p (List.mem_of_mem_erase hp)
    by_cases hbr : st.distances cur.1 = INF
    · simp [hbr] at hb
    · by_cases hv : cur.1 ∈ st.visited
      · simp only [hbr, hv, if_false, if_true, Option.some.injEq] at hb
        subst hb
        refine { h with queue_vertex := hqv, queue_bound := hqb, queue_has := ?_ }
        intro y hy hnv hne
        have hne2 : (y, st.distances y) ≠ cur := by
          intro h1
          rw [← h1] at hv
          exact hnv hv
        exact (List.mem_erase_of_ne hne2).mpr (h.queue_has y hy hnv hne)
      · simp only [hbr, hv, if_false, Option.some.injEq] at hb
        subst hb
        have hcurV := h.queue_vertex cur hmem
        apply dijkstraInv_foldl_relaxStep G hG hw s cur.1 _ _ _ _ (fun e he => he)
        · refine ⟨h.dist_source, h.pred_source, hqv, hqb, ?_, ?_, ?_, h.walk, ?_, ?_, ?_,
            h.pred_top, ?_⟩
          · intro y hy hnv hne
            simp only [List.mem_append, List.mem_singleton, not_or] at hnv
            have hne2 : (y, st.distances y) ≠ cur := by
              intro h1
              rw [← h1] at hnv
              exact hnv.2 rfl
            exact (List.mem_erase_of_ne hne2).mpr (h.queue_has y hy hnv.1 hne)
          · intro y hy
            rcases List.mem_append.mp hy with hy | hy
            · exact h.visited_vertex y hy
            · simp only [List.mem_singleton] at hy
              rw [hy]; exact ⟨hcurV, hbr⟩
          · exact List.Nodup.append h.visited_nodup (List.nodup_singleton _) (by simpa using hv)
          · intro y hy c hc
            rcases List.mem_append.mp hy with hy | hy
            · exact h.visited_opt y hy c hc
            · simp only [List.mem_singleton] at hy
              rw [hy] at hc ⊢
              rcases dijkstraInv_frontier G hG hw s st h cur.1 c hc with
                ⟨z, hz1, hz2, hz3⟩ | ⟨hv2, _⟩
              · have hzfin : st.distances z ≠ ⊤ := fun h1 => by
                  rw [h1] at hz3
                  exact WithTop.coe_ne_top (top_le_iff.mp hz3)
                have hzq := h.queue_has z hz1 hz2 hzfin
                exact le_trans (h.queue_bound cur hmem) (le_trans (hmin _ hzq) hz3)
              · exact absurd hv2 hv
          · intro u hu x w hux hnt
            rcases List.mem_append.mp hu with hu | hu
            · exact h.relaxed u hu x w hux (List.not_mem_nil _)
            · simp only [List.mem_singleton] at hu
              rw [hu] at hux
              exfalso
              apply hnt
              rw [hu]
              exact List.mem_map.mpr ⟨x, graph.mem_neighbors_of_hasEdge G hux, rfl⟩
          · intro y hy hys hne
            obtain ⟨h1, h2⟩ := h.pred y hy hys hne
            exact ⟨List.mem_append_left _ h1, h2⟩
          · intro y hy
            rcases List.mem_append.mp hy with hy | hy
            · obtain ⟨p, hp1, hp2, hp3⟩ := h.chain y hy
              exact ⟨p, hp1, fun x hx => List.mem_append_left _ (hp2 x hx), hp3⟩
            · simp only [List.mem_singleton] at hy
              by_cases hys : y = s
              · refine ⟨[s], ?_, ?_, List.nodup_singleton s⟩
                · rw [hys]; exact PredPath.base
                · intro x hx
                  simp only [List.mem_singleton] at hx
                  rw [hx, ← hys, hy]
                  exact List.mem_append_right _ (List.mem_singleton_self _)
              · rw [hy] at hys
                obtain ⟨h1, -⟩ := h.pred cur.1 hcurV hys hbr
                obtain ⟨p, hp1, hp2, hp3⟩ := h.chain _ h1
                refine ⟨p ++ [cur.1], ?_, ?_, ?_⟩
                · rw [hy]; exact PredPath.step hys hp1
                · intro x hx
                  rcases List.mem_append.mp hx with hx | hx
                  · exact List.mem_append_left _ (hp2 x hx)
                  · exact List.mem_append_right _ hx
                · exact List.Nodup.append hp3 (List.nodup_singleton _)
                    (by simpa using fun hx => hv (hp2 _ hx))
        · exact List.mem_append_right _ (List.mem_singleton_self _)

theorem dijkstraInv_final (G : graph Int W) (s : Int) (st : DijkstraState W)
    (h : DijkstraInv G s [] st) (hb : loopBody G st = none) :
    ∀ y ∈ G.getVertices, y ∉ st.visited → st.distances y = ⊤ := by
  intro y hy hnv
  by_contra hne
  have hq := h.queue_has y hy hnv hne
  unfold loopBody at hb
  cases ht : pqTop st.unvisitedQueue with
  | none =>
    rw [(pqTop_eq_none _).mp ht] at hq
    simp at hq
  | some cur =>
    obtain ⟨hmem, hmin⟩ := pqTop_spec _ _ ht
    simp only [ht] at hb
    by_cases hbr : st.distances cur.1 = INF
    · have h1 : cur.2 = ⊤ := by
        have := h.queue_bound cur hmem
        rw [hbr] at this
        exact top_le_iff.mp this
      have h2 := hmin _ hq
      rw [h1] at h2
      exact hne (top_le_iff.mp h2)
    · by_cases hv : cur.1 ∈ st.visited
      · simp [hbr, hv] at hb
      · simp [hbr, hv] at hb

/-- What the search leaves on a graph with non-negative weights: the call
returns, the invariant holds of the final state, and every vertex outside
`visited` is left at distance `INF`. -/
theorem DijkstraAlgo_result (G : graph Int W) (hG : G.Valid)
    (hw : ∀ u v w, G.HasEdge u v w → 0 ≤ w) (s : Int) (hs : s ∈ G.getVertices)
    (d0 : Int → WithTop W) (p0 : Int → Int) :
    ∃ st, DijkstraAlgo G s d0 p0 = some (st.visited, st.distances, st.predeccesors) ∧
      DijkstraInv G s [] st ∧
      (∀ y ∈ G.getVertices, y ∉ st.visited → st.distances y = ⊤) := by
  obtain ⟨st, hloop, hres⟩ := DijkstraAlgo_isSome G s d0 p0
  obtain ⟨hinv, hnone⟩ := dijkstraLoop_inv G (DijkstraInv G s [])
    (fun a b ha hb => dijkstraInv_loopBody G hG hw s a b ha hb) _ _ st
    (dijkstraInv_init G s hs d0 p0) hloop
  exact ⟨st, hres, hinv, dijkstraInv_final G s st hinv hnone⟩

theorem DijkstraAlgo_visited_of_walk (G : graph Int W) (hG : G.Valid)
    (hw : ∀ u v w, G.HasEdge u v w → 0 ≤ w) (s : Int) (st : DijkstraState W)
    (h : DijkstraInv G s [] st)
    (hfin : ∀ y ∈ G.getVertices, y ∉ st.visited → st.distances y = ⊤)
    (x : Int) (c : W) (hx : Walk G s x c) :
    x ∈ st.visited ∧ st.distances x ≤ (c : WithTop W) := by
  rcases dijkstraInv_frontier G hG hw s st h x c hx with ⟨y, hy1, hy2, hy3⟩ | h1
  · rw [hfin y hy1 hy2] at hy3
    exact absurd (top_le_iff.mp hy3) WithTop.coe_ne_top
  · exact h1

end Correctness

/-! ## Shortest distances and the reconstructed route -/

section Routes

variable {W : Type} [LinearOrderedAddCommGroup W]

theorem mapAt_mem {K T : Type} [DecidableEq K] (m : List (K × T)) (k : K) (x : T)
    (h : mapAt m k = some x) : (k, x) ∈ m := by
  induction m with
  | nil => simp [mapAt] at h
  | cons e rest ih =>
    by_cases he : e.1 = k
    · simp only [mapAt, he, if_true, Option.some.injEq] at h
      have : e = (k, x) := Prod.ext he h
      rw [this]; exact List.mem_cons_self _ _
    · simp only [mapAt, he, if_false] at h
      exact List.mem_cons_of_mem _ (ih h)

theorem graph.nonneg_of_rows (G : graph Int W)
    (h : ∀ r ∈ G.AdjList, ∀ e ∈ r.2, 0 ≤ e.2) : ∀ u v w, G.HasEdge u v w → 0 ≤ w := by
  intro u v w he
  obtain ⟨h1, -, h3⟩ := (graph.hasEdge_iff G u v w).mp he
  cases hr : mapAt G.AdjList u with
  | none => exact absurd ((mapCount_eq_zero_iff _ _).mpr hr) h1
  | some r =>
    have hm := mapAt_mem _ _ _ hr
    simp only [graph.row, hr, Option.getD_some] at h3
    exact h _ hm _ (mapAt_mem _ _ _ h3)

/-- C1: for every graph with non-negative weights, every source `s` that is a
vertex and every `d` reachable from `s`: `DijkstraAlgo` returns, `distances[s]`
is 0, and `distances[d]` is the least total weight of a directed path from
`s` to `d` (some path has this weight, and no path has a smaller one). -/
theorem DijkstraAlgo_shortest (calls : List (Call Int W)) (s d : Int)
    (d0 : Int → WithTop W) (p0 : Int → Int)
    (hw : ∀ u v w, (build calls).HasEdge u v w → 0 ≤ w)
    (hs : s ∈ (build calls).getVertices) (hd : Reachable (build calls) s d) :
    ∃ visited distances predeccesors,
      DijkstraAlgo (build calls) s d0 p0 = some (visited, distances, predeccesors) ∧
      distances s = 0 ∧
      (∃ p c, IsRoute (build calls) s d p ∧ routeWeight (build calls) p = some c ∧
        distances d = (c : WithTop W)) ∧
      (∀ p c, IsRoute (build calls) s d p → routeWeight (build calls) p = some c →
        distances d ≤ (c : WithTop W)) := by
  have hG := valid_build calls
  obtain ⟨st, hres, hinv, hfin⟩ := DijkstraAlgo_result (build calls) hG hw s hs d0 p0
  obtain ⟨c0, hc0⟩ := (reachable_iff_walk (build calls) hG s d).mp hd
  obtain ⟨hdv, -⟩ := DijkstraAlgo_visited_of_walk (build calls) hG hw s st hinv hfin d c0 hc0
  obtain ⟨hdV, hdfin⟩ := hinv.visited_vertex d hdv
  obtain ⟨c, hc, hdc⟩ := hinv.walk d hdV hdfin
  obtain ⟨p, hp, hpc⟩ := route_of_walk (build calls) hG hc
  refine ⟨st.visited, st.distances, st.predeccesors, hres, hinv.dist_source,
    ⟨p, c, hp, hpc, hdc⟩, ?_⟩
  intro p1 c1 hp1 hc1
  exact (DijkstraAlgo_visited_of_walk (build calls) hG hw s st hinv hfin d c1
    (walk_of_route (build calls) p1 s d c1 hp1 hc1)).2

set_option maxRecDepth 100000 in
/-- Witness for C1: the scenario graph, source 1, destination 4; the
distances of 1, 2, 3, 4 come out as 0, 1, 2, 3. -/
theorem DijkstraAlgo_shortest_witness :
    (∀ u v w, (build scenarioCalls).HasEdge u v w → 0 ≤ w) ∧
    (1 : Int) ∈ (build scenarioCalls).getVertices ∧
    Reachable (build scenarioCalls) 1 4 ∧
    (∃ visited distances predeccesors,
      DijkstraAlgo (build scenarioCalls) 1 (fun _ => 0) (fun _ => 0) =
        some (visited, distances, predeccesors) ∧
      distances 1 = 0 ∧
      (∃ p c, IsRoute (build scenarioCalls) 1 4 p ∧
        routeWeight (build scenarioCalls) p = some c ∧ distances 4 = (c : WithTop Int)) ∧
      (∀ p c, IsRoute (build scenarioCalls) 1 4 p →
        routeWeight (build scenarioCalls) p = some c → distances 4 ≤ (c : WithTop Int))) ∧
    (DijkstraAlgo (build scenarioCalls) 1 (fun _ => 0) (fun _ => 0)).map
      (fun r => [1, 2, 3, 4].map r.2.1) = some [0, 1, 2, 3] :=
  ⟨graph.nonneg_of_rows _ (by decide), by decide,
    ⟨[1, 2, 3, 4], by decide, by decide, by decide, by decide⟩,
    DijkstraAlgo_shortest scenarioCalls 1 4 (fun _ => 0) (fun _ => 0)
      (graph.nonneg_of_rows _ (by decide)) (by decide)
      ⟨[1, 2, 3, 4], by decide, by decide, by decide, by decide⟩,
    by decide⟩

end Routes

/-! ## Name resolution -/

section LookupLemmas

variable {D : Type}

theorem stringFind_ne_none_iff (s q : List Char) :
    stringFind s q ≠ none ↔ ∃ a b : List Char, a ++ q ++ b = s := by
  induction s with
  | nil =>
    by_cases hq : q = []
    · simp [stringFind, hq]
    · simp [stringFind, hq]
  | cons c cs ih =>
    unfold stringFind
    by_cases hp : q.isPrefixOf (c :: cs) = true
    · simp only [hp, if_true, ne_eq, not_false_eq_true, true_iff, reduceCtorEq]
      obtain ⟨t, ht⟩ := List.isPrefixOf_iff_prefix.mp hp
      exact ⟨[], t, by simpa using ht⟩
    · simp only [hp, if_false, ne_eq, Option.map_eq_none', Bool.false_eq_true]
      rw [← ne_eq, ih]
      constructor
      · rintro ⟨a, b, hab⟩
        exact ⟨c :: a, b, by simp [← hab]⟩
      · rintro ⟨a, b, hab⟩
        cases a with
        | nil =>
          exfalso
          apply hp
          exact List.isPrefixOf_iff_prefix.mpr ⟨b, by simpa using hab⟩
        | cons x a1 =>
          simp only [List.cons_append, List.cons.injEq] at hab
          exact ⟨a1, b, hab.2⟩

theorem fullname_test_iff (e : BuildingInfo D) (q : String) :
    (stringFind e.Fullname.data q.data ≠ none ∨ e.Fullname = q) ↔ Occurs q e.Fullname := by
  unfold Occurs
  rw [stringFind_ne_none_iff]
  constructor
  · rintro (h | h)
    · exact h
    · exact ⟨[], [], by simp [h]⟩
  · intro h
    exact Or.inl h

theorem startAbbrevLoop_eq_none (q : String) (B : List (BuildingInfo D)) :
    startAbbrevLoop q B = none ↔ ∀ X ∈ B, X.Abbrev ≠ q := by
  induction B with
  | nil => simp [startAbbrevLoop]
  | cons e rest ih =>
    by_cases h : e.Abbrev = q
    · simp [startAbbrevLoop, h]
    · simp [startAbbrevLoop, h, ih]

theorem startAbbrevLoop_first (q : String) (l1 : List (BuildingInfo D)) (Y : BuildingInfo D)
    (l2 : List (BuildingInfo D)) (hY : Y.Abbrev = q) (h1 : ∀ Z ∈ l1, Z.Abbrev ≠ q) :
    startAbbrevLoop q (l1 ++ Y :: l2) = some (Y.Fullname, Y.Coords) := by
  induction l1 with
  | nil => simp [startAbbrevLoop, hY]
  | cons e rest ih =>
    have he : ¬ e.Abbrev = q := h1 e (List.mem_cons_self _ _)
    simp only [List.cons_append, startAbbrevLoop, he, if_false]
    exact ih (fun Z hZ => h1 Z (List.mem_cons_of_mem _ hZ))

theorem startFullnameLoop_eq_none (q : String) (B : List (BuildingInfo D)) :
    startFullnameLoop q B = none ↔ ∀ X ∈ B, ¬ Occurs q X.Fullname := by
  induction B with
  | nil => simp [startFullnameLoop]
  | cons e rest ih =>
    by_cases h : stringFind e.Fullname.data q.data ≠ none ∨ e.Fullname = q
    · have h2 := (fullname_test_iff e q).mp h
      simp [startFullnameLoop, h, h2]
    · have h2 := (fullname_test_iff e q).not.mp h
      simp [startFullnameLoop, h, h2, ih]

theorem startFullnameLoop_first (q : String) (l1 : List (BuildingInfo D)) (Y : BuildingInfo D)
    (l2 : List (BuildingInfo D)) (hY : Occurs q Y.Fullname)
    (h1 : ∀ Z ∈ l1, ¬ Occurs q Z.Fullname) :
    startFullnameLoop q (l1 ++ Y :: l2) = some (Y.Fullname, Y.Coords) := by
  induction l1 with
  | nil =>
    have h := (fullname_test_iff Y q).mpr hY
    simp [startFullnameLoop, h]
  | cons e rest ih =>
    have he := (fullname_test_iff e q).not.mpr (h1 e (List.mem_cons_self _ _))
    simp only [List.cons_append, startFullnameLoop, he, if_false]
    exact ih (fun Z hZ => h1 Z (List.mem_cons_of_mem _ hZ))

theorem destAbbrevLoop_eq (q : String) (B : List (BuildingInfo D)) :
    destAbbrevLoop q B = startAbbrevLoop q B := by
  induction B with
  | nil => rfl
  | cons e rest ih => simp [destAbbrevLoop, startAbbrevLoop, ih]

theorem destFullnameLoop_eq (q : String) (B : List (BuildingInfo D)) :
    destFullnameLoop q B = startFullnameLoop q B := by
  induction B with
  | nil => rfl
  | cons e rest ih => simp [destFullnameLoop, startFullnameLoop, ih]

theorem lookupDest_eq (B : List (BuildingInfo D)) (q : String) :
    lookupDest B q = lookupStart B q := by
  simp [lookupDest, lookupStart, destAbbrevLoop_eq, destFullnameLoop_eq]

theorem exists_first {α : Type} (P : α → Prop) (l : List α) (h : ∃ x ∈ l, P x) :
    ∃ l1 y l2, l = l1 ++ y :: l2 ∧ P y ∧ ∀ z ∈ l1, ¬ P z := by
  classical
  induction l with
  | nil => simp at h
  | cons e rest ih =>
    by_cases he : P e
    · exact ⟨[], e, rest, rfl, he, by simp⟩
    · obtain ⟨x, hx, hPx⟩ := h
      have hx2 : x ∈ rest := by
        rcases List.mem_cons.mp hx with h1 | h1
        · rw [h1] at hPx; exact absurd hPx he
        · exact h1
      obtain ⟨l1, y, l2, h1, h2, h3⟩ := ih ⟨x, hx2, hPx⟩
      refine ⟨e :: l1, y, l2, by simp [h1], h2, ?_⟩
      intro z hz
      rcases List.mem_cons.mp hz with h4 | h4
      · rw [h4]; exact he
      · exact h3 z h4

/-- C11: for every list of points of interest and every query `q`, if some
point of interest has the abbreviation `q`, then the start lookup and the
destination lookup both select the first point of interest of the list
whose abbreviation is `q`, whatever the full names of the points before it
contain. -/
theorem lookup_abbrev_precedence (Buildings : List (BuildingInfo D)) (q : String)
    (X : BuildingInfo D) (hX : X ∈ Buildings) (hq : X.Abbrev = q) :
    ∃ l1 Y l2, Buildings = l1 ++ Y :: l2 ∧ Y.Abbrev = q ∧ (∀ Z ∈ l1, Z.Abbrev ≠ q) ∧
      lookupStart Buildings q = some (Y.Fullname, Y.Coords) ∧
      lookupDest Buildings q = some (Y.Fullname, Y.Coords) := by
  obtain ⟨l1, Y, l2, h1, h2, h3⟩ :=
    exists_first (fun Z : BuildingInfo D => Z.Abbrev = q) Buildings ⟨X, hX, hq⟩
  have hs : lookupStart Buildings q = some (Y.Fullname, Y.Coords) := by
    unfold lookupStart
    rw [h1, startAbbrevLoop_first q l1 Y l2 h2 h3]
  exact ⟨l1, Y, l2, h1, h2, h3, hs, by rw [lookupDest_eq]; exact hs⟩

/-- Witness for C11: the first building has a full name that contains the
query, the second has the query as its abbreviation; the second is
selected. -/
theorem lookup_abbrev_precedence_witness :
    (⟨"SEO", "Science and Engineering Offices", ⟨2, 2⟩⟩ : BuildingInfo Int) ∈
      [(⟨"LIB", "SEO Annex", ⟨1, 1⟩⟩ : BuildingInfo Int),
        ⟨"SEO", "Science and Engineering Offices", ⟨2, 2⟩⟩] ∧
    (⟨"SEO", "Science and Engineering Offices", ⟨2, 2⟩⟩ : BuildingInfo Int).Abbrev = "SEO" ∧
    (∃ l1 Y l2,
      [(⟨"LIB", "SEO Annex", ⟨1, 1⟩⟩ : BuildingInfo Int),
        ⟨"SEO", "Science and Engineering Offices", ⟨2, 2⟩⟩] = l1 ++ Y :: l2 ∧
      Y.Abbrev = "SEO" ∧ (∀ Z ∈ l1, Z.Abbrev ≠ "SEO") ∧
      lookupStart [(⟨"LIB", "SEO Annex", ⟨1, 1⟩⟩ : BuildingInfo Int),
        ⟨"SEO", "Science and Engineering Offices", ⟨2, 2⟩⟩] "SEO" =
          some (Y.Fullname, Y.Coords) ∧
      lookupDest [(⟨"LIB", "SEO Annex", ⟨1, 1⟩⟩ : BuildingInfo Int),
        ⟨"SEO", "Science and Engineering Offices", ⟨2, 2⟩⟩] "SEO" =
          some (Y.Fullname, Y.Coords)) ∧
    lookupStart [(⟨"LIB", "SEO Annex", ⟨1, 1⟩⟩ : BuildingInfo Int),
      ⟨"SEO", "Science and Engineering Offices", ⟨2, 2⟩⟩] "SEO" =
        some ("Science and Engineering Offices", ⟨2, 2⟩) :=
  ⟨List.mem_cons_of_mem _ (List.mem_cons_self _ _), rfl,
    lookup_abbrev_precedence _ "SEO" ⟨"SEO", "Science and Engineering Offices", ⟨2, 2⟩⟩
      (List.mem_cons_of_mem _ (List.mem_cons_self _ _)) rfl,
    by decide⟩

/-- C12: for every list of points of interest and every query `q` that is
the abbreviation of none of them: the lookup selects the first point of
interest of the list whose full name contains `q` as a contiguous run of
characters,
it finds nothing exactly when no full name contains `q`, and the start lookup
and the destination lookup give the same result. -/
theorem lookup_fullname (Buildings : List (BuildingInfo D)) (q : String)
    (h : ∀ X ∈ Buildings, X.Abbrev ≠ q) :
    lookupDest Buildings q = lookupStart Buildings q ∧
    (lookupStart Buildings q = none ↔ ∀ X ∈ Buildings, ¬ Occurs q X.Fullname) ∧
    (∀ l1 Y l2, Buildings = l1 ++ Y :: l2 → Occurs q Y.Fullname →
      (∀ Z ∈ l1, ¬ Occurs q Z.Fullname) →
      lookupStart Buildings q = some (Y.Fullname, Y.Coords)) := by
  have h0 : startAbbrevLoop q Buildings = none := (startAbbrevLoop_eq_none q Buildings).mpr h
  have hs : lookupStart Buildings q = startFullnameLoop q Buildings := by
    unfold lookupStart
    rw [h0]
  refine ⟨lookupDest_eq Buildings q, ?_, ?_⟩
  · rw [hs]
    exact startFullnameLoop_eq_none q Buildings
  · intro l1 Y l2 hB hY hl1
    rw [hs, hB]
    exact startFullnameLoop_first q l1 Y l2 hY hl1

/-- Witness for C12: no abbreviation is `Hall`; the first full name that
contains `Hall` is selected. -/
theorem lookup_fullname_witness :
    (∀ X ∈ [(⟨"LIB", "Library", ⟨1, 1⟩⟩ : BuildingInfo Int), ⟨"LH", "Lecture Hall", ⟨2, 2⟩⟩,
      ⟨"UH", "University Hall", ⟨3, 3⟩⟩], X.Abbrev ≠ "Hall") ∧
    (lookupDest [(⟨"LIB", "Library", ⟨1, 1⟩⟩ : BuildingInfo Int), ⟨"LH", "Lecture Hall", ⟨2, 2⟩⟩,
        ⟨"UH", "University Hall", ⟨3, 3⟩⟩] "Hall" =
      lookupStart [(⟨"LIB", "Library", ⟨1, 1⟩⟩ : BuildingInfo Int),
        ⟨"LH", "Lecture Hall", ⟨2, 2⟩⟩, ⟨"UH", "University Hall", ⟨3, 3⟩⟩] "Hall") ∧
    lookupStart [(⟨"LIB", "Library", ⟨1, 1⟩⟩ : BuildingInfo Int), ⟨"LH", "Lecture Hall", ⟨2, 2⟩⟩,
      ⟨"UH", "University Hall", ⟨3, 3⟩⟩] "Hall" = some ("Lecture Hall", ⟨2, 2⟩) :=
  ⟨by decide,
    (lookup_fullname [(⟨"LIB", "Library", ⟨1, 1⟩⟩ : BuildingInfo Int),
      ⟨"LH", "Lecture Hall", ⟨2, 2⟩⟩, ⟨"UH", "University Hall", ⟨3, 3⟩⟩] "Hall"
      (by decide)).1,
    by decide⟩

end LookupLemmas

/-! ## The nearest-node scan -/

section NearestLemmas

variable {D : Type} [LinearOrder D]

theorem firstMin_snoc (key : Int → D) (pre : List Int) (m x : Int)
    (h : FirstMin key pre m) :
    FirstMin key (pre ++ [x]) (if key x < key m then x else m) := by
  obtain ⟨l1, l2, h1, h2, h3⟩ := h
  by_cases hx : key x < key m
  · simp only [hx, if_true]
    refine ⟨pre, [], rfl, ?_, by simp⟩
    intro y hy
    rw [h1] at hy
    rcases List.mem_append.mp hy with hy | hy
    · exact lt_trans hx (h2 y hy)
    · rcases List.mem_cons.mp hy with hy | hy
      · rw [hy]; exact hx
      · exact lt_of_lt_of_le hx (h3 y hy)
  · simp only [hx, if_false]
    refine ⟨l1, l2 ++ [x], by simp [h1], h2, ?_⟩
    intro y hy
    rcases List.mem_append.mp hy with hy | hy
    · exact h3 y hy
    · simp only [List.mem_singleton] at hy
      rw [hy]; exact not_lt.mp hx

theorem firstMin_mem (key : Int → D) (pts : List Int) (m : Int) (h : FirstMin key pts m) :
    m ∈ pts ∧ ∀ y ∈ pts, key m ≤ key y := by
  obtain ⟨l1, l2, h1, h2, h3⟩ := h
  rw [h1]
  refine ⟨by simp, ?_⟩
  intro y hy
  rcases List.mem_append.mp hy with hy | hy
  · exact le_of_lt (h2 y hy)
  · rcases List.mem_cons.mp hy with hy | hy
    · rw [hy]
    · exact h3 y hy

theorem nearestStep_eq (dist : D → D → D → D → D) (Nodes : List (Int × Coordinates D))
    (dflt start endC : Coordinates D) (st : NearestState D) (x : Int) :
    (nearestStep dist Nodes dflt start endC st x).minStart =
        (if pointDist dist Nodes dflt start x < st.startMinDist then x else st.minStart) ∧
    (nearestStep dist Nodes dflt start endC st x).startMinDist =
        (if pointDist dist Nodes dflt start x < st.startMinDist
          then pointDist dist Nodes dflt start x else st.startMinDist) ∧
    (nearestStep dist Nodes dflt start endC st x).minDest =
        (if pointDist dist Nodes dflt endC x < st.endMinDist then x else st.minDest) ∧
    (nearestStep dist Nodes dflt start endC st x).endMinDist =
        (if pointDist dist Nodes dflt endC x < st.endMinDist
          then pointDist dist Nodes dflt endC x else st.endMinDist) := by
  unfold nearestStep pointDist
  simp only
  split <;> split <;> simp_all

theorem nearest_foldl (dist : D → D → D → D → D) (Nodes : List (Int × Coordinates D))
    (dflt start endC : Coordinates D) (rest pre : List Int) (st : NearestState D)
    (h1 : st.startMinDist = pointDist dist Nodes dflt start st.minStart)
    (h2 : FirstMin (pointDist dist Nodes dflt start) pre st.minStart)
    (h3 : st.endMinDist = pointDist dist Nodes dflt endC st.minDest)
    (h4 : FirstMin (pointDist dist Nodes dflt endC) pre st.minDest) :
    (rest.foldl (nearestStep dist Nodes dflt start endC) st).startMinDist =
      pointDist dist Nodes dflt start
        (rest.foldl (nearestStep dist Nodes dflt start endC) st).minStart ∧
    FirstMin (pointDist dist Nodes dflt start) (pre ++ rest)
      (rest.foldl (nearestStep dist Nodes dflt start endC) st).minStart ∧
    (rest.foldl (nearestStep dist Nodes dflt start endC) st).endMinDist =
      pointDist dist Nodes dflt endC
        (rest.foldl (nearestStep dist Nodes dflt start endC) st).minDest ∧
    FirstMin (pointDist dist Nodes dflt endC) (pre ++ rest)
      (rest.foldl (nearestStep dist Nodes dflt start endC) st).minDest := by
  induction rest generalizing pre st with
  | nil => simpa using ⟨h1, h2, h3, h4⟩
  | cons x tl ih =>
    obtain ⟨e1, e2, e3, e4⟩ := nearestStep_eq dist Nodes dflt start endC st x
    have key := ih (pre ++ [x]) (nearestStep dist Nodes dflt start endC st x) ?_ ?_ ?_ ?_
    · simpa using key
    · rw [e1, e2]; split <;> simp [h1]
    · rw [e1, h1]
      exact firstMin_snoc _ pre st.minStart x h2
    · rw [e3, e4]; split <;> simp [h3]
    · rw [e3, h3]
      exact firstMin_snoc _ pre st.minDest x h4

/-- C13: for every list of paths that is not empty and whose first path is not
empty, every pair of target coordinates and every distance function: the
scan reads no vector out of range, and the point it returns for each target
is the first point in scan order at the least distance from the target; so
it is a point of some path, no point of a path is strictly closer, and every
point scanned before it is strictly farther. -/
theorem nearestNodes_firstMin (dist : D → D → D → D → D) (Nodes : List (Int × Coordinates D))
    (dflt : Coordinates D) (Footways : List FootwayInfo) (start endC : Coordinates D)
    (f0 : FootwayInfo) (hF : Footways.head? = some f0) (hN : f0.Nodes ≠ []) :
    ∃ st, nearestNodes dist Nodes dflt Footways start endC = VectorRead.elem st ∧
      FirstMin (pointDist dist Nodes dflt start) (scanOrder Footways) st.minStart ∧
      FirstMin (pointDist dist Nodes dflt endC) (scanOrder Footways) st.minDest ∧
      st.minStart ∈ scanOrder Footways ∧ st.minDest ∈ scanOrder Footways ∧
      (∀ y ∈ scanOrder Footways,
        pointDist dist Nodes dflt start st.minStart ≤ pointDist dist Nodes dflt start y) ∧
      (∀ y ∈ scanOrder Footways,
        pointDist dist Nodes dflt endC st.minDest ≤ pointDist dist Nodes dflt endC y) ∧
      st.startMinDist = pointDist dist Nodes dflt start st.minStart ∧
      st.endMinDist = pointDist dist Nodes dflt endC st.minDest := by
  cases Footways with
  | nil => simp at hF
  | cons g rest =>
    simp only [List.head?_cons, Option.some.injEq] at hF
    subst hF
    cases hg : g.Nodes with
    | nil => exact absurd hg hN
    | cons x0 tl =>
      have hscan : scanOrder (g :: rest) = [x0] ++ (tl ++ scanOrder rest) := by
        simp [scanOrder, hg]
      have hfold : ∀ st : NearestState D,
          (g :: rest).foldl
            (fun st e => e.Nodes.foldl (nearestStep dist Nodes dflt start endC) st) st =
          (scanOrder (g :: rest)).foldl (nearestStep dist Nodes dflt start endC) st := by
        intro st
        unfold scanOrder
        rw [List.foldl_flatten, List.foldl_map]
      let seed : NearestState D :=
        { minStart := x0
          minDest := x0
          startMinDist := pointDist dist Nodes dflt start x0
          endMinDist := pointDist dist Nodes dflt endC x0 }
      have hseed : nearestStep dist Nodes dflt start endC seed x0 = seed := by
        unfold nearestStep
        simp [seed, pointDist]
      have hres : nearestNodes dist Nodes dflt (g :: rest) start endC =
          VectorRead.elem ((tl ++ scanOrder rest).foldl
            (nearestStep dist Nodes dflt start endC) seed) := by
        unfold nearestNodes
        simp only [hg]
        rw [hfold, hscan]
        simp only [List.singleton_append, List.foldl_cons]
        have hseed2 : nearestStep dist Nodes dflt start endC
            { minStart := x0
              startMinDist := dist (nodesIndex Nodes dflt x0).Lat (nodesIndex Nodes dflt x0).Lon
                start.Lat start.Lon
              minDest := x0
              endMinDist := dist (nodesIndex Nodes dflt x0).Lat (nodesIndex Nodes dflt x0).Lon
                endC.Lat endC.Lon } x0 = seed := hseed
        rw [hseed2]
      have hfm : ∀ key : Int → D, FirstMin key [x0] x0 := fun key =>
        ⟨[], [], rfl, by simp, by simp⟩
      obtain ⟨k1, k2, k3, k4⟩ := nearest_foldl dist Nodes dflt start endC
        (tl ++ scanOrder rest) [x0] seed rfl (hfm _) rfl (hfm _)
      rw [← hscan] at k2 k4
      exact ⟨_, hres, k2, k4, (firstMin_mem _ _ _ k2).1, (firstMin_mem _ _ _ k4).1,
        (firstMin_mem _ _ _ k2).2, (firstMin_mem _ _ _ k4).2, k1, k3⟩

/-- The code at the failing inputs of C15: with no path at all, and with a
first path that has no point, the seed `Footways[0].Nodes[0]` is read out of
range; the scan has no other outcome there. -/
theorem nearestNodes_outOfRange (dist : D → D → D → D → D)
    (Nodes : List (Int × Coordinates D)) (dflt start endC : Coordinates D)
    (rest : List FootwayInfo) :
    nearestNodes dist Nodes dflt [] start endC = VectorRead.outOfRange ∧
    nearestNodes dist Nodes dflt (⟨[]⟩ :: rest) start endC = VectorRead.outOfRange := by
  constructor <;> rfl

end NearestLemmas

/-- Witness for C13: paths 1, 2 and 3, 2; the points 2 and 3 are both at the
least distance 3 from the start target, and 2, scanned first, is returned;
point 3 is closest to the destination target. -/
theorem nearestNodes_firstMin_witness :
    ([⟨[1, 2]⟩, ⟨[3, 2]⟩] : List FootwayInfo).head? = some ⟨[1, 2]⟩ ∧
    (⟨[1, 2]⟩ : FootwayInfo).Nodes ≠ [] ∧
    nearestNodes exampleDist [(1, ⟨0, 0⟩), (2, ⟨3, 0⟩), (3, ⟨0, 3⟩)] ⟨0, 0⟩
      [⟨[1, 2]⟩, ⟨[3, 2]⟩] ⟨2, 2⟩ ⟨0, 4⟩ = VectorRead.elem ⟨2, 3, 3, 1⟩ ∧
    ∃ st, nearestNodes exampleDist [(1, ⟨0, 0⟩), (2, ⟨3, 0⟩), (3, ⟨0, 3⟩)] ⟨0, 0⟩
        [⟨[1, 2]⟩, ⟨[3, 2]⟩] ⟨2, 2⟩ ⟨0, 4⟩ = VectorRead.elem st ∧
      FirstMin (pointDist exampleDist [(1, ⟨0, 0⟩), (2, ⟨3, 0⟩), (3, ⟨0, 3⟩)] ⟨0, 0⟩ ⟨2, 2⟩)
        (scanOrder [⟨[1, 2]⟩, ⟨[3, 2]⟩]) st.minStart :=
  ⟨rfl, by decide, by decide,
    (nearestNodes_firstMin exampleDist [(1, ⟨0, 0⟩), (2, ⟨3, 0⟩), (3, ⟨0, 3⟩)] ⟨0, 0⟩
      [⟨[1, 2]⟩, ⟨[3, 2]⟩] ⟨2, 2⟩ ⟨0, 4⟩ ⟨[1, 2]⟩ rfl (by decide)).imp
      fun _ h => ⟨h.1, h.2.1⟩⟩

/-! ## The invariant of graph states -/

section GraphInvariant

variable {V W : Type} [LinearOrder V]

theorem mem_keys_of_mapCount {K T : Type} [DecidableEq K] (m : List (K × T)) (k : K)
    (h : mapCount m k ≠ 0) : k ∈ m.map Prod.fst := by
  induction m with
  | nil => simp [mapCount] at h
  | cons e rest ih =>
    by_cases he : e.1 = k
    · simp [he]
    · simp only [mapCount, he, if_false] at h
      simp [ih h]

theorem mapCount_of_mem_keys {K T : Type} [DecidableEq K] (m : List (K × T)) (k : K)
    (h : k ∈ m.map Prod.fst) : mapCount m k ≠ 0 := by
  induction m with
  | nil => simp at h
  | cons e rest ih =>
    by_cases he : e.1 = k
    · simp [mapCount, he]
    · simp only [mapCount, he, if_false]
      apply ih
      simp only [List.map_cons, List.mem_cons] at h
      rcases h with h | h
      · exact absurd h.symm he
      · exact h

theorem mem_keys_mapSet {K T : Type} [LinearOrder K] (m : List (K × T)) (k y : K) (x : T)
    (h : y ∈ (mapSet m k x).map Prod.fst) : y = k ∨ y ∈ m.map Prod.fst := by
  have h1 := mapCount_of_mem_keys _ _ h
  rw [mapCount_mapSet] at h1
  by_cases hy : y = k
  · exact Or.inl hy
  · simp only [hy, if_false] at h1
    exact Or.inr (mem_keys_of_mapCount _ _ h1)

theorem mapSet_keys_pairwise {K T : Type} [LinearOrder K] (m : List (K × T)) (k : K) (x : T)
    (h : (m.map Prod.fst).Pairwise (· < ·)) :
    ((mapSet m k x).map Prod.fst).Pairwise (· < ·) := by
  induction m with
  | nil => simp [mapSet]
  | cons e rest ih =>
    simp only [List.map_cons, List.pairwise_cons] at h
    by_cases h1 : k < e.1
    · simp only [mapSet, h1, if_true, List.map_cons, List.pairwise_cons]
      refine ⟨?_, h⟩
      intro y hy
      rcases List.mem_cons.mp hy with hy | hy
      · rw [hy]; exact h1
      · exact lt_trans h1 (h.1 y hy)
    · by_cases h2 : k = e.1
      · subst h2
        simp only [mapSet, lt_irrefl, if_true, if_false, List.map_cons, List.pairwise_cons]
        exact h
      · simp only [mapSet, h1, h2, if_false, List.map_cons, List.pairwise_cons]
        refine ⟨?_, ih h.2⟩
        intro y hy
        rcases mem_keys_mapSet rest k y x hy with hy | hy
        · rw [hy]; exact lt_of_le_of_ne (not_lt.mp h1) (Ne.symm h2)
        · exact h.1 y hy

theorem mapSet_length_absent {K T : Type} [LinearOrder K] (m : List (K × T)) (k : K) (x : T)
    (h : mapCount m k = 0) : (mapSet m k x).length = m.length + 1 := by
  induction m with
  | nil => simp [mapSet]
  | cons e rest ih =>
    by_cases h1 : k < e.1
    · simp [mapSet, h1]
    · by_cases h2 : k = e.1
      · simp [mapCount, h2] at h
      · have h3 : ¬ e.1 = k := fun hh => h2 hh.symm
        simp only [mapCount, h3, if_false] at h
        simp [mapSet, h1, h2, ih h]

theorem mapSet_length_present {K T : Type} [LinearOrder K] (m : List (K × T)) (k : K) (x : T)
    (hs : (m.map Prod.fst).Pairwise (· < ·)) (h : mapCount m k ≠ 0) :
    (mapSet m k x).length = m.length := by
  induction m with
  | nil => simp [mapCount] at h
  | cons e rest ih =>
    simp only [List.map_cons, List.pairwise_cons] at hs
    by_cases h2 : k = e.1
    · have h1 : ¬ k < e.1 := by rw [h2]; exact lt_irrefl _
      simp [mapSet, h1, h2]
    · have h3 : ¬ e.1 = k := fun hh => h2 hh.symm
      simp only [mapCount, h3, if_false] at h
      have hk := mem_keys_of_mapCount rest k h
      have h1 : ¬ k < e.1 := not_lt.mpr (le_of_lt (hs.1 k hk))
      simp [mapSet, h1, h2, ih hs.2 h]

theorem run_sorted_length (G : graph V W) (c : Call V W)
    (h : (G.AdjList.map Prod.fst).Pairwise (· < ·) ∧ G.AdjList.length = G.Vertices.length) :
    ((c.run G).AdjList.map Prod.fst).Pairwise (· < ·) ∧
      (c.run G).AdjList.length = (c.run G).Vertices.length := by
  cases c with
  | addVertex v =>
    simp only [Call.run]
    rw [graph.addVertex_eq]
    by_cases hv : mapCount G.AdjList v ≠ 0
    · simpa [hv] using h
    · simp only [hv, if_false]
      rw [not_not] at hv
      refine ⟨mapSet_keys_pairwise _ _ _ h.1, ?_⟩
      rw [mapSet_length_absent _ _ _ hv, h.2]
      simp
  | addEdge a b w =>
    simp only [Call.run]
    rw [graph.addEdge_eq]
    by_cases hc : mapCount G.AdjList a = 0 ∨ mapCount G.AdjList b = 0
    · simpa [hc] using h
    · simp only [hc, if_false]
      push_neg at hc
      refine ⟨mapSet_keys_pairwise _ _ _ h.1, ?_⟩
      rw [mapSet_length_present _ _ _ h.1 hc.1, h.2]

theorem buildFrom_sorted_length (G : graph V W) (calls : List (Call V W))
    (h : (G.AdjList.map Prod.fst).Pairwise (· < ·) ∧ G.AdjList.length = G.Vertices.length) :
    ((buildFrom G calls).AdjList.map Prod.fst).Pairwise (· < ·) ∧
      (buildFrom G calls).AdjList.length = (buildFrom G calls).Vertices.length := by
  induction calls generalizing G with
  | nil => exact h
  | cons c rest ih => exact ih _ (run_sorted_length G c h)

/-- C16: in every graph built from the empty graph by calls of `addVertex` and
`addEdge`, whenever `getWeight(a, b)` succeeds both `a` and `b` occur in
`getVertices()`; the identifiers with an entry in `AdjList` are exactly those
of `getVertices()`; and `NumVertices()` is the length of `getVertices()`. -/
theorem build_invariant (calls : List (Call V W)) :
    (∀ a b weight, ((build calls).getWeight a b weight).1 = true →
      a ∈ (build calls).getVertices ∧ b ∈ (build calls).getVertices) ∧
    (∀ v, mapCount (build calls).AdjList v ≠ 0 ↔ v ∈ (build calls).getVertices) ∧
    (build calls).NumVertices = (build calls).getVertices.length := by
  have hG := valid_build calls
  refine ⟨?_, ?_, ?_⟩
  · intro a b weight h
    exact graph.hasEdge_vertices _ hG ((graph.getWeight_fst_iff _ a b weight).mp h)
  · intro v
    exact (hG.vertices_iff v).symm
  · exact (buildFrom_sorted_length (graph.empty : graph V W) calls
      (by simp [graph.empty])).2

end GraphInvariant

/-! ## The graph construction of `main` -/

section BuildGraphLemmas

variable {D : Type}

theorem graph.keys_addEdge {V W : Type} [LinearOrder V] (G : graph V W) (a b : V) (w : W)
    (v : V) : mapCount (G.addEdge a b w).2.AdjList v ≠ 0 ↔ mapCount G.AdjList v ≠ 0 := by
  rw [graph.addEdge_eq]
  by_cases hc : mapCount G.AdjList a = 0 ∨ mapCount G.AdjList b = 0
  · simp [hc]
  · simp only [hc, if_false, mapCount_mapSet]
    push_neg at hc
    by_cases hv : v = a
    · simp [hv, hc.1]
    · simp [hv]

theorem graph.hasEdge_addEdge_mono {V W : Type} [LinearOrder V] (G : graph V W) (a b : V)
    (w : W) (x y : V) (h : ∃ w1, G.HasEdge x y w1) :
    ∃ w1, (G.addEdge a b w).2.HasEdge x y w1 := by
  obtain ⟨w1, hw1⟩ := h
  by_cases hc : (G.addEdge a b w).1 = true ∧ a = x ∧ b = y
  · refine ⟨w, fun weight => ?_⟩
    rw [graph.getWeight_addEdge]
    obtain ⟨hc1, rfl, rfl⟩ := hc
    simp [hc1]
  · refine ⟨w1, fun weight => ?_⟩
    rw [graph.getWeight_addEdge]
    simp only [hc, if_false]
    exact hw1 weight

theorem graph.hasEdge_addEdge_self {V W : Type} [LinearOrder V] (G : graph V W) (a b : V)
    (w : W) (ha : mapCount G.AdjList a ≠ 0) (hb : mapCount G.AdjList b ≠ 0) :
    (G.addEdge a b w).2.HasEdge a b w := by
  intro weight
  rw [graph.getWeight_addEdge]
  simp [(graph.addEdge_fst G a b w).mpr ⟨ha, hb⟩]

theorem graph.symmetric_addEdge_pair {V W : Type} [LinearOrder V] (G : graph V W) (a b : V)
    (w : W) (hsym : ∀ x y weight, G.getWeight x y weight = G.getWeight y x weight) :
    ∀ x y weight, ((G.addEdge a b w).2.addEdge b a w).2.getWeight x y weight =
      ((G.addEdge a b w).2.addEdge b a w).2.getWeight y x weight := by
  intro x y weight
  have h1 : ((G.addEdge a b w).2.addEdge b a w).1 = (G.addEdge a b w).1 := by
    have e1 := graph.addEdge_fst (G.addEdge a b w).2 b a w
    have e2 := graph.addEdge_fst G a b w
    rw [graph.keys_addEdge, graph.keys_addEdge] at e1
    cases h3 : ((G.addEdge a b w).2.addEdge b a w).1 <;> cases h4 : (G.addEdge a b w).1
    · rfl
    · exact absurd (e1.mpr ⟨(e2.mp h4).2, (e2.mp h4).1⟩) (by simp [h3])
    · exact absurd (e2.mpr ⟨(e1.mp h3).2, (e1.mp h3).1⟩) (by simp [h4])
    · rfl
  rw [graph.getWeight_addEdge, graph.getWeight_addEdge, graph.getWeight_addEdge,
    graph.getWeight_addEdge, h1, hsym x y weight]
  have eP : (a = y ∧ b = x) = (b = x ∧ a = y) := propext and_comm
  have eQ : (b = y ∧ a = x) = (a = x ∧ b = y) := propext and_comm
  simp only [eP, eQ]
  generalize (G.addEdge a b w).1 = t
  cases t
  · simp
  · by_cases hP : b = x ∧ a = y <;> by_cases hQ : a = x ∧ b = y <;> simp [hP, hQ]

theorem consecutive_cons_cons (a b : Int) (rest : List Int) (x y : Int)
    (h : Consecutive (a :: b :: rest) x y) :
    (x = a ∧ y = b) ∨ Consecutive (b :: rest) x y := by
  obtain ⟨l1, l2, hl⟩ := h
  cases l1 with
  | nil =>
    simp only [List.nil_append, List.cons.injEq] at hl
    exact Or.inl ⟨hl.1.symm, hl.2.1.symm⟩
  | cons c l3 =>
    simp only [List.cons_append, List.cons.injEq] at hl
    exact Or.inr ⟨l3, l2, hl.2⟩

theorem addFootwayEdges_spec (dist : D → D → D → D → D) (Nodes : List (Int × Coordinates D))
    (nodes : List Int) (G : graph Int D)
    (hN : ∀ x ∈ nodes, mapCount Nodes x ≠ 0) (hV : ∀ x ∈ nodes, mapCount G.AdjList x ≠ 0)
    (hsym : ∀ x y weight, G.getWeight x y weight = G.getWeight y x weight) :
    ∃ G1, addFootwayEdges dist Nodes G nodes = some G1 ∧
      (∀ x y weight, G1.getWeight x y weight = G1.getWeight y x weight) ∧
      (∀ v, mapCount G1.AdjList v ≠ 0 ↔ mapCount G.AdjList v ≠ 0) ∧
      (∀ x y, (∃ w, G.HasEdge x y w) → ∃ w, G1.HasEdge x y w) ∧
      (∀ x y, Consecutive nodes x y → ∃ w, G1.HasEdge x y w) := by
  induction nodes generalizing G with
  | nil =>
    refine ⟨G, by simp [addFootwayEdges], hsym, fun _ => Iff.rfl, fun _ _ h => h, ?_⟩
    rintro x y ⟨l1, l2, hl⟩
    simp at hl
  | cons a tl ih =>
    cases tl with
    | nil =>
      refine ⟨G, by simp [addFootwayEdges], hsym, fun _ => Iff.rfl, fun _ _ h => h, ?_⟩
      rintro x y ⟨l1, l2, hl⟩
      have := congrArg List.length hl
      simp at this
      omega
    | cons b rest =>
      have ha := hN a (List.mem_cons_self _ _)
      have hb := hN b (List.mem_cons_of_mem _ (List.mem_cons_self _ _))
      obtain ⟨ca, hca⟩ : ∃ c, mapAt Nodes a = some c := by
        cases h : mapAt Nodes a with
        | none => exact absurd ((mapCount_eq_zero_iff _ _).mpr h) ha
        | some c => exact ⟨c, rfl⟩
      obtain ⟨cb, hcb⟩ : ∃ c, mapAt Nodes b = some c := by
        cases h : mapAt Nodes b with
        | none => exact absurd ((mapCount_eq_zero_iff _ _).mpr h) hb
        | some c => exact ⟨c, rfl⟩
      have hVa := hV a (List.mem_cons_self _ _)
      have hVb := hV b (List.mem_cons_of_mem _ (List.mem_cons_self _ _))
      obtain ⟨G1, h1, h2, h3, h4, h5⟩ := ih
        ((G.addEdge a b (dist ca.Lat ca.Lon cb.Lat cb.Lon)).2.addEdge b a
          (dist ca.Lat ca.Lon cb.Lat cb.Lon)).2
        (fun x hx => hN x (List.mem_cons_of_mem _ hx))
        (fun x hx => by
          rw [graph.keys_addEdge, graph.keys_addEdge]
          exact hV x (List.mem_cons_of_mem _ hx))
        (graph.symmetric_addEdge_pair G a b _ hsym)
      refine ⟨G1, ?_, h2, ?_, ?_, ?_⟩
      · simp only [addFootwayEdges, hca, hcb]
        exact h1
      · intro v
        rw [h3, graph.keys_addEdge, graph.keys_addEdge]
      · intro x y hxy
        exact h4 x y (graph.hasEdge_addEdge_mono _ _ _ _ x y
          (graph.hasEdge_addEdge_mono _ _ _ _ x y hxy))
      · intro x y hxy
        rcases consecutive_cons_cons a b rest x y hxy with ⟨rfl, rfl⟩ | hc
        · apply h4
          apply graph.hasEdge_addEdge_mono
          exact ⟨_, graph.hasEdge_addEdge_self G x y _ hVa hVb⟩
        · exact h5 x y hc

theorem addFootways_spec (dist : D → D → D → D → D) (Nodes : List (Int × Coordinates D))
    (Footways : List FootwayInfo) (G : graph Int D)
    (hN : ∀ e ∈ Footways, ∀ x ∈ e.Nodes, mapCount Nodes x ≠ 0)
    (hV : ∀ e ∈ Footways, ∀ x ∈ e.Nodes, mapCount G.AdjList x ≠ 0)
    (hsym : ∀ x y weight, G.getWeight x y weight = G.getWeight y x weight) :
    ∃ G1, addFootways dist Nodes G Footways = some G1 ∧
      (∀ x y weight, G1.getWeight x y weight = G1.getWeight y x weight) ∧
      (∀ x y, (∃ w, G.HasEdge x y w) → ∃ w, G1.HasEdge x y w) ∧
      (∀ e ∈ Footways, ∀ x y, Consecutive e.Nodes x y → ∃ w, G1.HasEdge x y w) := by
  induction Footways generalizing G with
  | nil =>
    exact ⟨G, rfl, hsym, fun _ _ h => h, by simp⟩
  | cons e rest ih =>
    obtain ⟨G1, h1, h2, h3, h4, h5⟩ := addFootwayEdges_spec dist Nodes e.Nodes G
      (hN e (List.mem_cons_self _ _)) (hV e (List.mem_cons_self _ _)) hsym
    obtain ⟨G2, k1, k2, k3, k4⟩ := ih G1
      (fun f hf => hN f (List.mem_cons_of_mem _ hf))
      (fun f hf x hx => (h3 x).mpr (hV f (List.mem_cons_of_mem _ hf) x hx)) h2
    refine ⟨G2, ?_, k2, fun x y h => k3 x y (h4 x y h), ?_⟩
    · simp only [addFootways, h1]
      exact k1
    · intro f hf x y hxy
      rcases List.mem_cons.mp hf with hf | hf
      · rw [hf] at hxy
        exact k3 x y (h5 x y hxy)
      · exact k4 f hf x y hxy

theorem foldl_addVertex_spec (Nodes : List (Int × Coordinates D)) (G : graph Int D)
    (hG : G.Valid) (hE : ∀ x y weight, G.getWeight x y weight = (false, weight)) :
    (∀ x y weight,
      (Nodes.foldl (fun G e => (G.addVertex e.1).2) G).getWeight x y weight = (false, weight)) ∧
    (∀ v, mapCount Nodes v ≠ 0 →
      mapCount (Nodes.foldl (fun G e => (G.addVertex e.1).2) G).AdjList v ≠ 0) ∧
    (∀ v, mapCount G.AdjList v ≠ 0 →
      mapCount (Nodes.foldl (fun G e => (G.addVertex e.1).2) G).AdjList v ≠ 0) := by
  induction Nodes generalizing G with
  | nil => exact ⟨hE, by simp [mapCount], fun _ h => h⟩
  | cons e rest ih =>
    have hG1 := graph.valid_addVertex G hG e.1
    have hE1 : ∀ x y weight, (G.addVertex e.1).2.getWeight x y weight = (false, weight) := by
      intro x y weight
      rw [graph.getWeight_addVertex G hG]
      exact hE x y weight
    obtain ⟨h1, h2, h3⟩ := ih (G.addVertex e.1).2 hG1 hE1
    have hkey : ∀ v, (mapCount G.AdjList v ≠ 0 ∨ v = e.1) →
        mapCount (G.addVertex e.1).2.AdjList v ≠ 0 := by
      intro v hv
      rw [graph.addVertex_eq]
      by_cases hc : mapCount G.AdjList e.1 ≠ 0
      · rw [if_pos hc]
        rcases hv with hv | hv
        · exact hv
        · rw [hv]; exact hc
      · rw [if_neg hc]
        simp only [mapCount_mapSet]
        by_cases hve : v = e.1
        · simp [hve]
        · simp only [hve, if_false]
          rcases hv with hv | hv
          · exact hv
          · exact absurd hv hve
    refine ⟨h1, ?_, ?_⟩
    · intro v hv
      simp only [List.foldl_cons]
      by_cases hve : e.1 = v
      · exact h3 v (hkey v (Or.inr hve.symm))
      · simp only [mapCount, hve, if_false] at hv
        exact h2 v hv
    · intro v hv
      simp only [List.foldl_cons]
      exact h3 v (hkey v (Or.inl hv))

/-- C14: for every point map and every list of paths whose identifiers are all
keys of the point map, and for every distance function (symmetric or not):
the graph construction ends without an exception; in the graph it builds,
for every pair `(a, b)` that is consecutive in some path `getWeight(a, b)`
and `getWeight(b, a)` both succeed with the same weight; and for all `x`,
`y` the calls `getWeight(x, y)` and `getWeight(y, x)` give the same result:
both fail, or both succeed with the same weight. -/
theorem buildGraph_symmetric (dist : D → D → D → D → D) (Nodes : List (Int × Coordinates D))
    (Footways : List FootwayInfo)
    (h : ∀ e ∈ Footways, ∀ x ∈ e.Nodes, mapCount Nodes x ≠ 0) :
    ∃ G, buildGraph dist Nodes Footways = some G ∧
      (∀ e ∈ Footways, ∀ a b, Consecutive e.Nodes a b →
        ∃ w, G.HasEdge a b w ∧ G.HasEdge b a w) ∧
      (∀ x y weight, G.getWeight x y weight = G.getWeight y x weight) := by
  have hE : ∀ x y (weight : D),
      (graph.empty : graph Int D).getWeight x y weight = (false, weight) := by
    intro x y weight
    simp [graph.getWeight, graph.empty, mapCount]
  obtain ⟨h1, h2, -⟩ := foldl_addVertex_spec Nodes (graph.empty : graph Int D)
    graph.valid_empty hE
  obtain ⟨G, k1, k2, -, k4⟩ := addFootways_spec dist Nodes Footways
    (Nodes.foldl (fun G e => (G.addVertex e.1).2) graph.empty) h
    (fun e he x hx => h2 x (h e he x hx))
    (fun x y weight => by rw [h1, h1])
  refine ⟨G, k1, ?_, k2⟩
  intro e he a b hab
  obtain ⟨w, hw⟩ := k4 e he a b hab
  refine ⟨w, hw, fun weight => ?_⟩
  rw [← k2 a b weight]
  exact hw weight

/-- Witness for C14: three points, the paths 1, 2, 3 and 3, 2, and a distance
function that is not symmetric; the pair 2, 3 occurs in both orders and ends
with the weight of its last occurrence in both directions. -/
theorem buildGraph_symmetric_witness :
    (∀ e ∈ ([⟨[1, 2, 3]⟩, ⟨[3, 2]⟩] : List FootwayInfo), ∀ x ∈ e.Nodes,
      mapCount [((1 : Int), (⟨0, 0⟩ : Coordinates Int)), (2, ⟨3, 0⟩), (3, ⟨0, 3⟩)] x ≠ 0) ∧
    (∃ G, buildGraph (fun a b c d => a + 2 * b + 3 * c + 4 * d)
        [((1 : Int), (⟨0, 0⟩ : Coordinates Int)), (2, ⟨3, 0⟩), (3, ⟨0, 3⟩)]
        [⟨[1, 2, 3]⟩, ⟨[3, 2]⟩] = some G ∧
      (∀ e ∈ ([⟨[1, 2, 3]⟩, ⟨[3, 2]⟩] : List FootwayInfo), ∀ a b, Consecutive e.Nodes a b →
        ∃ w, G.HasEdge a b w ∧ G.HasEdge b a w) ∧
      (∀ x y weight, G.getWeight x y weight = G.getWeight y x weight)) ∧
    (buildGraph (fun a b c d => a + 2 * b + 3 * c + 4 * d)
        [((1 : Int), (⟨0, 0⟩ : Coordinates Int)), (2, ⟨3, 0⟩), (3, ⟨0, 3⟩)]
        [⟨[1, 2, 3]⟩, ⟨[3, 2]⟩]).map
      (fun G => (G.getWeight 2 3 0, G.getWeight 3 2 0, G.getWeight 1 3 0)) =
        some ((true, 15), (true, 15), (false, 0)) :=
  ⟨by decide,
    buildGraph_symmetric (fun a b c d => a + 2 * b + 3 * c + 4 * d)
      [((1 : Int), (⟨0, 0⟩ : Coordinates Int)), (2, ⟨3, 0⟩), (3, ⟨0, 3⟩)]
      [⟨[1, 2, 3]⟩, ⟨[3, 2]⟩] (by decide),
    by decide⟩

end BuildGraphLemmas

/-! ## Termination of the search and the size of the frontier -/

section Termination

variable {W : Type} [LinearOrderedAddCommGroup W]

theorem relaxStep_queue_length_ge (G : graph Int W) (cur : Int) (st : DijkstraState W)
    (e : Int) : st.unvisitedQueue.length ≤ (relaxStep G cur st e).unvisitedQueue.length := by
  unfold relaxStep
  simp only
  split
  · simp
  · exact le_refl _

theorem foldl_relaxStep_queue_length_ge (G : graph Int W) (cur : Int) (l : List Int)
    (st : DijkstraState W) :
    st.unvisitedQueue.length ≤ (l.foldl (relaxStep G cur) st).unvisitedQueue.length := by
  induction l generalizing st with
  | nil => simp
  | cons e rest ih =>
    rw [List.foldl_cons]
    exact le_trans (relaxStep_queue_length_ge G cur st e) (ih _)

theorem loopBody_queue (G : graph Int W) (st st1 : DijkstraState W)
    (h : loopBody G st = some st1) :
    1 ≤ st.unvisitedQueue.length ∧
      st.unvisitedQueue.length ≤ st1.unvisitedQueue.length + 1 ∧
      (st1.visited = st.visited →
        st1.unvisitedQueue.length + 1 = st.unvisitedQueue.length) := by
  unfold loopBody at h
  cases ht : pqTop st.unvisitedQueue with
  | none => simp [ht] at h
  | some cur =>
    have hmem := (pqTop_spec _ _ ht).1
    have hpos := List.length_pos_of_mem hmem
    have hlen : (st.unvisitedQueue.erase cur).length + 1 = st.unvisitedQueue.length := by
      rw [List.length_erase_of_mem hmem]
      omega
    simp only [ht] at h
    by_cases hb : st.distances cur.1 = INF
    · simp [hb] at h
    · by_cases hv : cur.1 ∈ st.visited
      · simp only [hb, hv, if_false, if_true, Option.some.injEq] at h
        subst h
        simp only
        omega
      · simp only [hb, hv, if_false, Option.some.injEq] at h
        subst h
        have h1 := foldl_relaxStep_queue_length_ge G cur.1 (G.neighbors cur.1)
          { st with unvisitedQueue := st.unvisitedQueue.erase cur,
                    visited := st.visited ++ [cur.1] }
        simp only at h1
        refine ⟨by omega, by omega, ?_⟩
        intro hvis
        rw [foldl_relaxStep_visited] at hvis
        simp at hvis

theorem loopBody_visited_nodup (G : graph Int W) (st st1 : DijkstraState W)
    (hn : st.visited.Nodup) (h : loopBody G st = some st1) : st1.visited.Nodup := by
  unfold loopBody at h
  cases ht : pqTop st.unvisitedQueue with
  | none => simp [ht] at h
  | some cur =>
    simp only [ht] at h
    by_cases hb : st.distances cur.1 = INF
    · simp [hb] at h
    · by_cases hv : cur.1 ∈ st.visited
      · simp only [hb, hv, if_false, if_true, Option.some.injEq] at h
        subst h
        exact hn
      · simp only [hb, hv, if_false, Option.some.injEq] at h
        subst h
        rw [foldl_relaxStep_visited]
        exact List.Nodup.append hn (List.nodup_singleton _) (by simpa using hv)

theorem dijkstraLoopCount_spec (G : graph Int W) (fuel : Nat) (st : DijkstraState W)
    (h : loopMeasure G st < fuel) :
    ∃ st1 passes pushes,
      dijkstraLoopCount G fuel st = some (st1, passes, pushes) ∧
      dijkstraLoop G fuel st = some st1 ∧
      passes ≤ loopMeasure G st ∧
      pushes + st.unvisitedQueue.length ≤ loopMeasure G st := by
  induction fuel generalizing st with
  | zero => omega
  | succ n ih =>
    unfold dijkstraLoopCount dijkstraLoop
    cases ht : pqTop st.unvisitedQueue with
    | none =>
      have hb : loopBody G st = none := by simp [loopBody, ht]
      refine ⟨st, 0, 0, rfl, by simp [hb], Nat.zero_le _, ?_⟩
      unfold loopMeasure
      omega
    | some cur =>
      have hpos := List.length_pos_of_mem (pqTop_spec _ _ ht).1
      cases hb : loopBody G st with
      | none =>
        refine ⟨st, 1, 0, rfl, rfl, ?_, ?_⟩
        · unfold loopMeasure; omega
        · unfold loopMeasure; omega
      | some st1 =>
        have hm := loopBody_measure G st st1 hb
        obtain ⟨q1, q2, -⟩ := loopBody_queue G st st1 hb
        obtain ⟨st2, p, k, e1, e2, e3, e4⟩ := ih st1 (by omega)
        refine ⟨st2, p + 1,
          k + (st1.unvisitedQueue.length + 1 - st.unvisitedQueue.length), ?_, ?_, ?_, ?_⟩
        · simp [e1]
        · simp only [e2]
        · omega
        · omega

/-- C17: for every graph, whatever its weights, and every source: the loop of
`DijkstraAlgo` ends and the call returns; no vertex occurs twice in
`visited`; the entries pushed into the queue, those of the initialisation
and those of the relaxation loops, number at most `|V| + 1 + |E|`, and so do
the passes through the loop body; a pass that appends no vertex to `visited`
pushes no entry. -/
theorem DijkstraAlgo_terminates (G : graph Int W) (s : Int) (d0 : Int → WithTop W)
    (p0 : Int → Int) :
    ∃ st passes pushes,
      dijkstraLoopCount G (G.getVertices.length + 1 + G.NumEdges + 1)
        (dijkstraInit G s d0 p0) = some (st, passes, pushes) ∧
      DijkstraAlgo G s d0 p0 = some (st.visited, st.distances, st.predeccesors) ∧
      st.visited.Nodup ∧
      (dijkstraInit G s d0 p0).unvisitedQueue.length + pushes ≤
        G.getVertices.length + 1 + G.NumEdges ∧
      passes ≤ G.getVertices.length + 1 + G.NumEdges ∧
      (∀ a b, loopBody G a = some b → b.visited = a.visited →
        b.unvisitedQueue.length + 1 = a.unvisitedQueue.length) := by
  obtain ⟨st, passes, pushes, e1, e2, e3, e4⟩ := dijkstraLoopCount_spec G
    (G.getVertices.length + 1 + G.NumEdges + 1) (dijkstraInit G s d0 p0)
    (by rw [loopMeasure_init]; omega)
  rw [loopMeasure_init] at e3 e4
  have hn : st.visited.Nodup := (dijkstraLoop_inv G (fun a => a.visited.Nodup)
    (fun a b ha hb => loopBody_visited_nodup G a b ha hb) _ _ st
    (by show (dijkstraInit G s d0 p0).visited.Nodup
        rw [(dijkstraInit_spec G s d0 p0).1]; exact List.nodup_nil) e2).1
  refine ⟨st, passes, pushes, e1, by simp [DijkstraAlgo, e2], hn, by omega, e3, ?_⟩
  intro a b hab hvis
  exact (loopBody_queue G a b hab).2.2 hvis

end Termination

/-! ## The visited list -/

section Visited

variable {W : Type} [LinearOrderedAddCommGroup W]

end Visited

/-! ## Finalised vertices are not modified -/

section Frozen

variable {W : Type} [LinearOrderedAddCommGroup W]

theorem edgeWeight_nonneg (G : graph Int W) (hw : ∀ u v w, G.HasEdge u v w → 0 ≤ w)
    (u v : Int) : (0 : WithTop W) ≤ (((G.getWeight u v 0).2 : W) : WithTop W) := by
  rw [← WithTop.coe_zero]
  apply WithTop.coe_le_coe.mpr
  by_cases h : (G.getWeight u v 0).1 = true
  · exact hw u v _ ((graph.getWeight_fst_iff G u v 0).mp h)
  · have h2 : G.getWeight u v 0 = (false, 0) := by
      rw [graph.getWeight_eq] at h ⊢
      by_cases hc : mapCount G.AdjList u = 0 ∨ mapCount G.AdjList v = 0
      · simp [hc]
      · simp only [hc, if_false] at h ⊢
        cases hm : mapAt (G.row u) v with
        | none => rfl
        | some x => simp [hm] at h
    rw [h2]

theorem ordInv_init (G : graph Int W) (s : Int) (d0 : Int → WithTop W) (p0 : Int → Int) :
    OrdInv (⟨dijkstraInit G s d0 p0, s, []⟩ : RunPoint W) := by
  obtain ⟨h1, h2, h3, -, h5, h6, -⟩ := dijkstraInit_spec G s d0 p0
  refine ⟨?_, ?_, ?_, ?_, ?_⟩
  · intro q hq
    rcases h5 q hq with h | h
    · rw [h]; simp only; rw [h2]
    · simp only; rw [h.2]; exact le_top
  · intro q hq _ hne
    simp only at hne ⊢
    by_cases hqs : q.1 = s
    · rw [hqs, h2]; exact h6
    · rcases h5 q hq with h | h
      · rw [h] at hqs; exact absurd rfl hqs
      · exact absurd (h3 q.1 h.1 hqs) hne
  · intro u hu
    simp only [h1] at hu
    simp at hu
  · simp only [h1]
    simp
  · intro h
    exact absurd rfl h

theorem pointStep_spec (G : graph Int W) (hw : ∀ u v w, G.HasEdge u v w → 0 ≤ w)
    (a b : RunPoint W) (ha : OrdInv a) (hab : pointStep G a = some b) :
    OrdInv b ∧
      ∃ t, b.st.visited = a.st.visited ++ t ∧
        ∀ v ∈ a.st.visited, b.st.distances v = a.st.distances v ∧
          b.st.predeccesors v = a.st.predeccesors v := by
  unfold pointStep at hab
  cases hp : a.pending with
  | cons e rest =>
    simp only [hp, Option.some.injEq] at hab
    subst hab
    have hpend : a.pending ≠ [] := by rw [hp]; simp
    have hlast := ha.cur_last hpend
    have hwe := edgeWeight_nonneg G hw a.cur e
    unfold relaxStep
    simp only
    by_cases hlt : a.st.distances a.cur + (((G.getWeight a.cur e 0).2 : W) : WithTop W) <
        a.st.distances e
    · simp only [hlt, if_true]
      have hcur_le : a.st.distances a.cur ≤
          a.st.distances a.cur + (((G.getWeight a.cur e 0).2 : W) : WithTop W) :=
        le_add_of_nonneg_right hwe
      have he_nv : e ∉ a.st.visited := fun hv =>
        not_le.mpr hlt (le_trans (hlast e hv) hcur_le)
      have hvis : ∀ v ∈ a.st.visited, v ≠ e := fun v hv h1 => he_nv (h1 ▸ hv)
      have hcur : a.cur ≠ e := fun h1 => by
        have h2 : a.st.distances e = a.st.distances a.cur := by rw [h1]
        exact not_le.mpr hlt (by rw [h2]; exact hcur_le)
      have hle : ∀ v, Function.update a.st.distances e
          (a.st.distances a.cur + (((G.getWeight a.cur e 0).2 : W) : WithTop W)) v ≤
            a.st.distances v := by
        intro v
        by_cases hve : v = e
        · rw [hve, Function.update_same]; exact le_of_lt hlt
        · rw [Function.update_noteq hve]
      refine ⟨⟨?_, ?_, ?_, ?_, ?_⟩, [], by simp, ?_⟩
      · intro q hq
        rcases List.mem_cons.mp hq with hq | hq
        · rw [hq]; simp
        · exact le_trans (hle q.1) (ha.queue_bound q hq)
      · intro q hq hnv hne
        simp only at hq hnv hne ⊢
        by_cases hqe : q.1 = e
        · rw [hqe, Function.update_same]; exact List.mem_cons_self _ _
        · rw [Function.update_noteq hqe] at hne ⊢
          rcases List.mem_cons.mp hq with hq | hq
          · rw [hq] at hqe; exact absurd rfl hqe
          · exact List.mem_cons_of_mem _ (ha.queue_has q hq hnv hne)
      · intro u hu q hq
        simp only at hu hq ⊢
        rw [Function.update_noteq (hvis u hu)]
        rcases List.mem_cons.mp hq with hq | hq
        · rw [hq]; exact le_trans (hlast u hu) hcur_le
        · exact ha.visited_le_queue u hu q hq
      · simp only
        have : a.st.visited.map (Function.update a.st.distances e
            (a.st.distances a.cur + (((G.getWeight a.cur e 0).2 : W) : WithTop W))) =
            a.st.visited.map a.st.distances :=
          List.map_congr_left (fun v hv => Function.update_noteq (hvis v hv) _ _)
        rw [this]
        exact ha.mono
      · intro _ u hu
        simp only at hu ⊢
        rw [Function.update_noteq (hvis u hu), Function.update_noteq hcur]
        exact hlast u hu
      · intro v hv
        exact ⟨Function.update_noteq (hvis v hv) _ _, Function.update_noteq (hvis v hv) _ _⟩
    · rw [if_neg hlt]
      refine ⟨⟨ha.queue_bound, ha.queue_has, ha.visited_le_queue, ha.mono, ?_⟩, [], by simp,
        fun v _ => ⟨rfl, rfl⟩⟩
      intro _ u hu
      exact hlast u hu
  | nil =>
    simp only [hp] at hab
    cases ht : pqTop a.st.unvisitedQueue with
    | none => simp [ht] at hab
    | some cur =>
      obtain ⟨hmem, hmin⟩ := pqTop_spec _ _ ht
      simp only [ht] at hab
      have hqb : ∀ p ∈ a.st.unvisitedQueue.erase cur, a.st.distances p.1 ≤ p.2 := fun p hp =>
        ha.queue_bound p (List.mem_of_mem_erase hp)
      by_cases hbr : a.st.distances cur.1 = INF
      · simp [hbr] at hab
      · by_cases hv : cur.1 ∈ a.st.visited
        · simp only [hbr, hv, if_false, if_true, Option.some.injEq] at hab
          subst hab
          refine ⟨⟨hqb, ?_, ?_, ha.mono, fun h => absurd rfl h⟩, [], by simp,
            fun v _ => ⟨rfl, rfl⟩⟩
          · intro q hq hnv hne
            have hne2 : (q.1, a.st.distances q.1) ≠ cur := by
              intro h1
              rw [← h1] at hv
              exact hnv hv
            exact (List.mem_erase_of_ne hne2).mpr
              (ha.queue_has q (List.mem_of_mem_erase hq) hnv hne)
          · intro u hu q hq
            exact ha.visited_le_queue u hu q (List.mem_of_mem_erase hq)
        · simp only [hbr, hv, if_false, Option.some.injEq] at hab
          subst hab
          have hcurq : (cur.1, a.st.distances cur.1) ∈ a.st.unvisitedQueue :=
            ha.queue_has cur hmem hv hbr
          have hold : ∀ u ∈ a.st.visited, a.st.distances u ≤ a.st.distances cur.1 :=
            fun u hu => ha.visited_le_queue u hu _ hcurq
          refine ⟨⟨hqb, ?_, ?_, ?_, ?_⟩, [cur.1], rfl, fun v _ => ⟨rfl, rfl⟩⟩
          · intro q hq hnv hne
            simp only [List.mem_append, List.mem_singleton, not_or] at hnv
            have hne2 : (q.1, a.st.distances q.1) ≠ cur := by
              intro h1
              rw [← h1] at hnv
              exact hnv.2 rfl
            exact (List.mem_erase_of_ne hne2).mpr
              (ha.queue_has q (List.mem_of_mem_erase hq) hnv.1 hne)
          · intro u hu q hq
            have hq2 := List.mem_of_mem_erase hq
            rcases List.mem_append.mp hu with hu | hu
            · exact ha.visited_le_queue u hu q hq2
            · simp only [List.mem_singleton] at hu
              rw [hu]
              exact le_trans (ha.queue_bound cur hmem) (hmin q hq2)
          · simp only [List.map_append, List.map_cons, List.map_nil]
            rw [List.pairwise_append]
            refine ⟨ha.mono, by simp, ?_⟩
            intro x hx y hy
            simp only [List.mem_singleton] at hy
            obtain ⟨u, hu, rfl⟩ := List.mem_map.mp hx
            rw [hy]
            exact hold u hu
          · intro _ u hu
            rcases List.mem_append.mp hu with hu | hu
            · exact hold u hu
            · simp only [List.mem_singleton] at hu
              rw [hu]

theorem runLater_inv (G : graph Int W) (hw : ∀ u v w, G.HasEdge u v w → 0 ≤ w)
    (a b : RunPoint W) (ha : OrdInv a) (hab : RunLater G a b) :
    OrdInv b ∧
      ∃ t, b.st.visited = a.st.visited ++ t ∧
        ∀ v ∈ a.st.visited, b.st.distances v = a.st.distances v ∧
          b.st.predeccesors v = a.st.predeccesors v := by
  induction hab with
  | refl => exact ⟨ha, [], by simp, fun v _ => ⟨rfl, rfl⟩⟩
  | @tail b c _ hstep ih =>
    obtain ⟨hb, t, ht, hfix⟩ := ih
    obtain ⟨hc, t2, ht2, hfix2⟩ := pointStep_spec G hw _ _ hb hstep
    refine ⟨hc, t ++ t2, by rw [ht2, ht, List.append_assoc], ?_⟩
    intro v hv
    have hv2 : v ∈ b.st.visited := by rw [ht]; exact List.mem_append_left t hv
    exact ⟨(hfix2 v hv2).1.trans (hfix v hv).1, (hfix2 v hv2).2.trans (hfix v hv).2⟩

theorem runLater_relax (G : graph Int W) (cur : Int) (l : List Int) (st : DijkstraState W) :
    RunLater G ⟨st, cur, l⟩ ⟨l.foldl (relaxStep G cur) st, cur, []⟩ := by
  induction l generalizing st with
  | nil => exact Relation.ReflTransGen.refl
  | cons e rest ih =>
    have h1 : pointStep G ⟨st, cur, e :: rest⟩ = some ⟨relaxStep G cur st e, cur, rest⟩ := rfl
    exact Relation.ReflTransGen.head h1 (ih _)

theorem runLater_loopBody (G : graph Int W) (st st1 : DijkstraState W) (c : Int)
    (h : loopBody G st = some st1) : ∃ c1, RunLater G ⟨st, c, []⟩ ⟨st1, c1, []⟩ := by
  unfold loopBody at h
  cases ht : pqTop st.unvisitedQueue with
  | none => simp [ht] at h
  | some cur =>
    simp only [ht] at h
    by_cases hb : st.distances cur.1 = INF
    · simp [hb] at h
    · by_cases hv : cur.1 ∈ st.visited
      · simp only [hb, hv, if_false, if_true, Option.some.injEq] at h
        subst h
        refine ⟨cur.1, Relation.ReflTransGen.single ?_⟩
        simp [pointStep, ht, hb, hv]
      · simp only [hb, hv, if_false, Option.some.injEq] at h
        subst h
        refine ⟨cur.1, Relation.ReflTransGen.head ?_ (runLater_relax G cur.1 _ _)⟩
        simp [pointStep, ht, hb, hv]

theorem runLater_dijkstraLoop (G : graph Int W) (fuel : Nat) (st st1 : DijkstraState W)
    (c : Int) (h : dijkstraLoop G fuel st = some st1) :
    ∃ c1, RunLater G ⟨st, c, []⟩ ⟨st1, c1, []⟩ := by
  induction fuel generalizing st c with
  | zero => simp [dijkstraLoop] at h
  | succ n ih =>
    unfold dijkstraLoop at h
    cases hb : loopBody G st with
    | none =>
      simp only [hb, Option.some.injEq] at h
      subst h
      exact ⟨c, Relation.ReflTransGen.refl⟩
    | some st2 =>
      simp only [hb] at h
      obtain ⟨c2, h2⟩ := runLater_loopBody G st st2 c hb
      obtain ⟨c1, h1⟩ := ih st2 c2 h
      exact ⟨c1, Relation.ReflTransGen.trans h2 h1⟩

/-- C19: for every graph with non-negative weights and every source: the
state that `DijkstraAlgo` returns is a point of the run that starts after the
initialisation; and for every point `a` of that run and every point `b` at
or after `a`, each vertex in `visited` at `a` is still in `visited` at `b`
with the same entries in `distances` and `predeccesors`, and the distances
of the vertices of `visited` at `a`, in list order, do not decrease. -/
theorem visited_frozen (G : graph Int W) (hw : ∀ u v w, G.HasEdge u v w → 0 ≤ w)
    (s : Int) (d0 : Int → WithTop W) (p0 : Int → Int) :
    (∃ st c, DijkstraAlgo G s d0 p0 = some (st.visited, st.distances, st.predeccesors) ∧
      RunLater G ⟨dijkstraInit G s d0 p0, s, []⟩ ⟨st, c, []⟩) ∧
    ∀ a b, RunLater G ⟨dijkstraInit G s d0 p0, s, []⟩ a → RunLater G a b →
      (∀ v ∈ a.st.visited, v ∈ b.st.visited ∧ b.st.distances v = a.st.distances v ∧
        b.st.predeccesors v = a.st.predeccesors v) ∧
      (a.st.visited.map a.st.distances).Pairwise (· ≤ ·) := by
  constructor
  · obtain ⟨st, hloop, hres⟩ := DijkstraAlgo_isSome G s d0 p0
    obtain ⟨c, hc⟩ := runLater_dijkstraLoop G _ _ st s hloop
    exact ⟨st, c, hres, hc⟩
  · intro a b ha hab
    obtain ⟨hinva, -⟩ := runLater_inv G hw _ a (ordInv_init G s d0 p0) ha
    obtain ⟨-, t, ht, hfix⟩ := runLater_inv G hw a b hinva hab
    refine ⟨?_, hinva.mono⟩
    intro v hv
    exact ⟨by rw [ht]; exact List.mem_append_left t hv, hfix v hv⟩

set_option maxRecDepth 100000 in
/-- Witness for C19: the scenario graph from source 1; the run ends with
`visited` 1, 2, 3, 4 at the distances 0, 1, 2, 3. -/
theorem visited_frozen_witness :
    (∀ u v w, (build scenarioCalls).HasEdge u v w → 0 ≤ w) ∧
    ((∃ st c, DijkstraAlgo (build scenarioCalls) 1 (fun _ => 0) (fun _ => 0) =
        some (st.visited, st.distances, st.predeccesors) ∧
      RunLater (build scenarioCalls)
        ⟨dijkstraInit (build scenarioCalls) 1 (fun _ => 0) (fun _ => 0), 1, []⟩ ⟨st, c, []⟩) ∧
    ∀ a b, RunLater (build scenarioCalls)
        ⟨dijkstraInit (build scenarioCalls) 1 (fun _ => 0) (fun _ => 0), 1, []⟩ a →
      RunLater (build scenarioCalls) a b →
      (∀ v ∈ a.st.visited, v ∈ b.st.visited ∧ b.st.distances v = a.st.distances v ∧
        b.st.predeccesors v = a.st.predeccesors v) ∧
      (a.st.visited.map a.st.distances).Pairwise (· ≤ ·)) ∧
    (DijkstraAlgo (build scenarioCalls) 1 (fun _ => 0) (fun _ => 0)).map
      (fun r => (r.1, r.1.map r.2.1)) = some ([1, 2, 3, 4], [0, 1, 2, 3]) :=
  ⟨graph.nonneg_of_rows _ (by decide),
    visited_frozen (build scenarioCalls) (graph.nonneg_of_rows _ (by decide)) 1
      (fun _ => 0) (fun _ => 0),
    by decide⟩

end Frozen

/-! ## The predecessor walk on the maps of the search -/

section PredecessorWalk

variable {W : Type} [LinearOrderedAddCommGroup W]

end PredecessorWalk

end GoogleMapApp
